import Mathlib

/-!
Verification development for the `gtfs_kit` Feed container (`gtfs_kit/feed.py`).

The Feed class stores one pandas DataFrame (or `None`) per GTFS table, plus a
`dist_units` string, and maintains three derived indexes.  We embed DataFrames
as lists of rows of cell values, with pandas/NumPy floats modelled as exact
rationals (`Rat`); machine floating point itself is not modelled, and every
statement about decimal formatting is made relative to this rational model.
Raising a Python exception is modelled by `Except.error` carrying the message.

Code of the repository that lives outside `gtfs_kit/feed.py` (the
`constants`, `helpers` and `cleaners` modules) is not part of the source
tree; each definition standing in for it is modelled from the spec and is
marked `Modelled from the spec:` in its doc comment.
-/

namespace GtfsKit

/-- A cell value of a DataFrame: missing (`NaN`/`None`), an integer, a float
(modelled as an exact rational), or a string. -/
inductive Value where
  | na
  | int (m : Int)
  | float (q : Rat)
  | str (s : String)
deriving DecidableEq, Repr

/-- A pandas DataFrame: an ordered list of column names and a list of rows,
each row an ordered list of cell values (positionally aligned with `cols`). -/
structure DataFrame where
  cols : List String
  rows : List (List Value)
deriving DecidableEq, Repr

/-- `DataFrame.empty` in pandas: true iff one of the axes has length 0. -/
def DataFrame.isEmpty (df : DataFrame) : Bool :=
  df.rows.isEmpty || df.cols.isEmpty

/-- Modelled from the spec: the registry's `dist_units` enumeration
(`constants.DIST_UNITS`), a fixed small set of distance unit symbols. -/
def DIST_UNITS : List String := ["ft", "mi", "m", "km"]

/-- Modelled from the spec: the registry's set of integer-flagged columns
(`constants.INT_COLS`) — columns that must be serialized as integers. -/
def INT_COLS : List String :=
  ["location_type", "wheelchair_boarding", "route_type", "direction_id",
   "stop_sequence", "wheelchair_accessible", "bikes_allowed", "pickup_type",
   "drop_off_type", "timepoint", "exception_type", "payment_method",
   "transfers", "transfer_type", "exact_times", "headway_secs",
   "monday", "tuesday", "wednesday", "thursday", "friday", "saturday", "sunday"]

/-- Modelled from the spec: the registry columns declared with string type
(`constants.DTYPE`) — identifier columns forced to parse as strings. -/
def DTYPE : List String :=
  ["agency_id", "stop_id", "route_id", "trip_id", "service_id", "shape_id",
   "fare_id", "zone_id", "parent_station", "from_stop_id", "to_stop_id",
   "route_short_name", "stop_code"]

/-- The registry's GTFS table names (`constants.GTFS_REF["table"].unique()` /
the table entries of `FEED_ATTRS_1`). -/
inductive TName where
  | agency | stops | routes | trips | stop_times | calendar | calendar_dates
  | fare_attributes | fare_rules | shapes | frequencies | transfers | feed_info
deriving DecidableEq, Repr

/-- Modelled from the spec: the registry's canonical table iteration order. -/
def tableNames : List TName :=
  [.agency, .stops, .routes, .trips, .stop_times, .calendar, .calendar_dates,
   .fare_attributes, .fare_rules, .shapes, .frequencies, .transfers, .feed_info]

/-- The file stem (`<table>.txt`) associated with each table slot. -/
def TName.fileStem : TName → String
  | .agency => "agency"
  | .stops => "stops"
  | .routes => "routes"
  | .trips => "trips"
  | .stop_times => "stop_times"
  | .calendar => "calendar"
  | .calendar_dates => "calendar_dates"
  | .fare_attributes => "fare_attributes"
  | .fare_rules => "fare_rules"
  | .shapes => "shapes"
  | .frequencies => "frequencies"
  | .transfers => "transfers"
  | .feed_info => "feed_info"

/-- The recognized table, if any, for a file stem (membership in `feed_dict`). -/
def tableOfStem (s : String) : Option TName :=
  tableNames.find? (fun n => n.fileStem = s)

theorem mem_tableNames (m : TName) : m ∈ tableNames := by
  cases m <;> simp [tableNames]

/-- Modelled from the spec: `helpers.almost_equal` keys each row by column
name; equality is order-independent on rows and on columns but exact on cell
values, i.e. the canonically sorted tables coincide iff these multisets do. -/
def keyedRow (cols : List String) (r : List Value) : Multiset (String × Value) :=
  (cols.zip r : List (String × Value))

/-- The multiset of name-keyed rows of a DataFrame. -/
def keyedRows (df : DataFrame) : Multiset (Multiset (String × Value)) :=
  (df.rows.map (keyedRow df.cols) : List (Multiset (String × Value)))

/-- Modelled from the spec: `helpers.almost_equal f g` — true iff `f` and `g`
represent the same multiset of rows/columns after canonicalizing row order
and column order. -/
def almost_equal (f g : DataFrame) : Bool :=
  decide ((f.cols : Multiset String) = (g.cols : Multiset String)) &&
  decide (keyedRows f = keyedRows g)

/-- `df.set_index(key)` (pandas): keys each row by its cell in column `key`,
removing that column; raises `KeyError` when the column is absent. -/
def set_index (df : DataFrame) (key : String) :
    Except String (List (Value × List Value)) :=
  match df.cols.indexOf? key with
  | some i => .ok (df.rows.map (fun r => (r.getD i .na, r.eraseIdx i)))
  | none => .error ("KeyError: " ++ key)

/-- `df.groupby([k1, k2])` (pandas), modelled as each row keyed by its pair of
cells in columns `k1`, `k2`; raises `KeyError` when a column is absent. -/
def groupby2 (df : DataFrame) (k1 k2 : String) :
    Except String (List ((Value × Value) × List Value)) :=
  match df.cols.indexOf? k1, df.cols.indexOf? k2 with
  | some i, some j => .ok (df.rows.map (fun r => ((r.getD i .na, r.getD j .na), r)))
  | _, _ => .error ("KeyError: " ++ k1 ++ "," ++ k2)

/-- The Feed container: `dist_units`, one optional DataFrame per registry
table slot, and the three derived indexes (`_trips_i`, `_calendar_i`,
`_calendar_dates_g`). -/
structure Feed where
  dist_units : String
  tables : TName → Option DataFrame
  trips_i : Option (List (Value × List Value))
  calendar_i : Option (List (Value × List Value))
  calendar_dates_g : Option (List ((Value × Value) × List Value))

/-- The `ValueError` message of the `dist_units` setter; it names the allowed
value set `DIST_UNITS`. -/
def distUnitsMsg : String :=
  "Distance units are required and must lie in " ++ toString DIST_UNITS

/-- The `dist_units` setter: raises a `ValueError` naming `DIST_UNITS` when
the value is not in the enumeration, else stores it. -/
def Feed.set_dist_units (f : Feed) (v : String) : Except String Feed :=
  if v ∉ DIST_UNITS then .error distUnitsMsg
  else .ok { f with dist_units := v }

/-- The derived index of a keyed table slot: present iff the assigned value is
present and non-empty, in which case it is `set_index` of that value. -/
def derive1 (v : Option DataFrame) (key : String) :
    Except String (Option (List (Value × List Value))) :=
  match v with
  | some df => if df.isEmpty then .ok none else (set_index df key).map some
  | none => .ok none

/-- The derived grouped index of the `calendar_dates` slot. -/
def deriveG (v : Option DataFrame) :
    Except String (Option (List ((Value × Value) × List Value))) :=
  match v with
  | some df => if df.isEmpty then .ok none else (groupby2 df "service_id" "date").map some
  | none => .ok none

/-- Whole-attribute assignment of a table slot (the `@property` setters):
stores the value; for `trips`, `calendar` and `calendar_dates` also
recomputes the corresponding derived index. -/
def Feed.setTable (f : Feed) (n : TName) (v : Option DataFrame) :
    Except String Feed :=
  match n with
  | .trips =>
      (derive1 v "trip_id").map fun i =>
        { f with tables := Function.update f.tables .trips v, trips_i := i }
  | .calendar =>
      (derive1 v "service_id").map fun i =>
        { f with tables := Function.update f.tables .calendar v, calendar_i := i }
  | .calendar_dates =>
      (deriveG v).map fun i =>
        { f with tables := Function.update f.tables .calendar_dates v,
                 calendar_dates_g := i }
  | _ => .ok { f with tables := Function.update f.tables n v }

/-- The sequential `setattr` loop of `Feed.__init__`: assigns each listed
table slot through its setter, stopping at the first raised error. -/
def Feed.setTables (f : Feed) : List TName → (TName → Option DataFrame) →
    Except String Feed
  | [], _ => .ok f
  | n :: ns, ts =>
      match f.setTable n (ts n) with
      | .ok f' => f'.setTables ns ts
      | .error e => .error e

/-- `Feed.__init__`: sets `dist_units` first (validating it), then assigns
every table slot through its setter, in the parameter order. -/
def Feed.init (du : String) (ts : TName → Option DataFrame) : Except String Feed := do
  let f0 : Feed :=
    { dist_units := "", tables := fun _ => none,
      trips_i := none, calendar_i := none, calendar_dates_g := none }
  let f1 ← f0.set_dist_units du
  f1.setTables tableNames ts

/-- One slot comparison inside `Feed.__eq__`.  When `self`'s slot holds a
DataFrame, a non-DataFrame `other` slot yields `False`; when `self`'s slot is
`None` and `other`'s holds a DataFrame, `x != y` is an elementwise DataFrame
whose truth value is ambiguous, so pandas raises `ValueError`. -/
def tableEqSlot (x y : Option DataFrame) : Except String Bool :=
  match x, y with
  | some a, some b => .ok (almost_equal a b)
  | some _, none => .ok false
  | none, some _ => .error "The truth value of a DataFrame is ambiguous."
  | none, none => .ok true

/-- The slot loop of `Feed.__eq__` over `FEED_ATTRS_1`: returns `False` at the
first unequal slot, and compares `dist_units` last. -/
def feedEqAux (f g : Feed) : List TName → Except String Bool
  | [] => .ok (decide (f.dist_units = g.dist_units))
  | n :: ns => do
      let b ← tableEqSlot (f.tables n) (g.tables n)
      if b then feedEqAux f g ns else .ok false

/-- `Feed.__eq__`. -/
def feedEq (f g : Feed) : Except String Bool :=
  feedEqAux f g tableNames

/-! ### Decimal text: rendering and parsing of CSV cells

`to_csv` / `read_csv` are modelled at cell level: a written table is a header
plus rows of cell strings; the comma/quote framing of a CSV line is treated
as transparent.  Machine floats are modelled as rationals; `%.{nd}f`
formatting is exact on the values the round-trip claims quantify over
(those with at most `nd` decimal places), and rounds half-up elsewhere. -/

/-- The digit character of `d < 10`. -/
def digitToChar (d : Nat) : Char := Char.ofNat (48 + d)

/-- The value of a decimal digit character. -/
def charToDigit (c : Char) : Option Nat :=
  if 48 ≤ c.toNat ∧ c.toNat ≤ 57 then some (c.toNat - 48) else none

/-- Digit extraction with explicit fuel (structural recursion, so rendered
text reduces in the kernel); `fuel >= n` extracts all digits. -/
def digitCharsAux (fuel : Nat) (n : Nat) : List Char :=
  match fuel with
  | 0 => []
  | fuel + 1 =>
      if n = 0 then [] else digitCharsAux fuel (n / 10) ++ [digitToChar (n % 10)]

/-- The decimal digit characters of `n`, most significant first (empty for 0). -/
def natDigitChars (n : Nat) : List Char := digitCharsAux n n

/-- The decimal rendering of a natural number. -/
def natLit (n : Nat) : List Char := if n = 0 then ['0'] else natDigitChars n

/-- The decimal rendering of an integer. -/
def intLit (m : Int) : List Char :=
  (if m < 0 then ['-'] else []) ++ natLit m.natAbs

/-- Left-pad with `'0'` to length `k`. -/
def padZeros (k : Nat) (cs : List Char) : List Char :=
  List.replicate (k - cs.length) '0' ++ cs

/-- The `%.{nd}f` fixed-point rendering of a rational. -/
def decLit (nd : Nat) (q : Rat) : List Char :=
  let m : Int := ⌊q * (10 : Rat) ^ nd + 1 / 2⌋
  let a : Nat := m.natAbs
  let ip : Nat := a / 10 ^ nd
  let fp : Nat := a % 10 ^ nd
  (if m < 0 then ['-'] else []) ++ natLit ip ++
    (if nd = 0 then [] else '.' :: padZeros nd (natDigitChars fp))

/-- Parse an unsigned run of decimal digits (positional fold). -/
def parseDigitsAux : List Char → Nat → Option Nat
  | [], acc => some acc
  | c :: cs, acc =>
      match charToDigit c with
      | some d => parseDigitsAux cs (acc * 10 + d)
      | none => none

/-- Parse a non-empty unsigned decimal natural literal. -/
def parseNatLit (cs : List Char) : Option Nat :=
  if cs.isEmpty then none else parseDigitsAux cs 0

/-- Parse an optionally-signed decimal integer literal. -/
def parseIntLit : List Char → Option Int
  | [] => none
  | c :: rest =>
      if c = '-' then (parseNatLit rest).map (fun n : Nat => -(n : Int))
      else (parseNatLit (c :: rest)).map (fun n : Nat => (n : Int))

/-- Parse the unsigned part of a decimal literal (`123` or `123.456`):
everything before the first dot is the integer part; a second dot makes the
fractional part unparseable. -/
def parseDecAux (cs : List Char) : Option Rat :=
  match cs.dropWhile (fun c => c ≠ '.') with
  | [] => (parseNatLit cs).map (fun n : Nat => (n : Rat))
  | _ :: fp =>
      match parseNatLit (cs.takeWhile (fun c => c ≠ '.')), parseNatLit fp with
      | some n, some m => some ((n : Rat) + (m : Rat) / (10 : Rat) ^ fp.length)
      | _, _ => none

/-- Parse an optionally-signed decimal literal, as float conversion does. -/
def parseDecLit : List Char → Option Rat
  | [] => none
  | c :: rest =>
      if c = '-' then (parseDecAux rest).map (fun q => -q)
      else parseDecAux (c :: rest)

/-! ### The Writer (`Feed.write`) -/

/-- Integer truncation toward zero, as the NumPy float-to-int cast. -/
def ratTrunc (q : Rat) : Int := if 0 ≤ q then ⌊q⌋ else -⌊-q⌋

/-- `fillna(-1)` followed by `astype(int)` on one cell: missing becomes the
sentinel `-1`; floats truncate toward zero; strings go through `int()`,
which raises (`none`) on non-integer text. -/
def castIntCell : Value → Option Int
  | .na => some (-1)
  | .int m => some m
  | .float q => some (ratTrunc q)
  | .str s => parseIntLit s.data

/-- The `ValueError` raised by `astype(int)` on non-integer text. -/
def castErrMsg : String := "ValueError: invalid literal for int()"

/-- The integer-column coercion of `Feed.write` on one cell:
`fillna(-1).astype(int).astype(str).replace("-1", "")`. -/
def coerceIntCell (v : Value) : Except String Value :=
  match castIntCell v with
  | some m =>
      let s : String := ⟨intLit m⟩
      .ok (.str (if s = "-1" then "" else s))
  | none => .error castErrMsg

/-- Apply the integer-column coercion to the cells of a row that sit under a
column flagged in `INT_COLS` (positional pairing with the column list). -/
def coerceRowAux : List String → List Value → Except String (List Value)
  | _, [] => .ok []
  | [], v :: vs => (coerceRowAux [] vs).map (fun rest => v :: rest)
  | c :: cs, v :: vs => do
      let w ← if c ∈ INT_COLS then coerceIntCell v else .ok v
      let rest ← coerceRowAux cs vs
      .ok (w :: rest)

/-- Coerce every row of a table. -/
def coerceRows (cols : List String) : List (List Value) →
    Except String (List (List Value))
  | [] => .ok []
  | r :: rs => do
      let r' ← coerceRowAux cols r
      let rs' ← coerceRows cols rs
      .ok (r' :: rs')

/-- The integer-column coercion loop of `Feed.write`, applied to a per-table
copy of the DataFrame. -/
def coerceInts (t : DataFrame) : Except String DataFrame :=
  (coerceRows t.cols t.rows).map (fun rs => ⟨t.cols, rs⟩)

/-- A written table file: the header line and the rendered cell strings. -/
structure Rendered where
  header : List String
  rows : List (List String)
deriving DecidableEq, Repr

/-- `to_csv` rendering of one cell with `float_format="%.{nd}f"` and the
default empty representation for missing values. -/
def renderCell (nd : Nat) : Value → String
  | .na => ""
  | .int m => ⟨intLit m⟩
  | .float q => ⟨decLit nd q⟩
  | .str s => s

/-- Serialization of one table by `Feed.write`: coerce the integer-flagged
columns on a copy, then render every cell. -/
def renderTable (nd : Nat) (t : DataFrame) : Except String Rendered :=
  (coerceInts t).map (fun u => ⟨u.cols, u.rows.map (fun r => r.map (renderCell nd))⟩)

/-- The per-table loop of `Feed.write`: render every present table. -/
def writeLoop (f : Feed) (nd : Nat) (acc : TName → Option Rendered) :
    List TName → Except String (TName → Option Rendered)
  | [] => .ok acc
  | n :: ns =>
      match f.tables n with
      | none => writeLoop f nd acc ns
      | some t =>
          match renderTable nd t with
          | .ok r => writeLoop f nd (Function.update acc n (some r)) ns
          | .error e => .error e

/-- `Feed.write` (directory destination): the mapping from table name to the
written `<table>.txt` file contents. -/
def Feed.write (f : Feed) (nd : Nat) : Except String (TName → Option Rendered) :=
  writeLoop f nd (fun _ => none) tableNames

/-! ### The Table Loader (`_read_feed_from_path`) -/

/-- The cells of column `j` of a written file (short rows read as missing). -/
def colCells (r : Rendered) (j : Nat) : List String :=
  r.rows.map (fun row => row.getD j "")

/-- The parsed type of a column. -/
inductive CType where
  | cstr | cint | cfloat
deriving DecidableEq, Repr

/-- `read_csv` column typing: columns declared in the registry `DTYPE` parse
as strings; otherwise pandas type inference applies — an integer column when
every cell is an integer literal, a float column when every cell is blank or
a decimal literal, and strings otherwise. -/
def inferColType (rawName : String) (cells : List String) : CType :=
  if rawName ∈ DTYPE then .cstr
  else if cells.all (fun s => (parseIntLit s.data).isSome) then .cint
  else if cells.all (fun s => s = "" || (parseDecLit s.data).isSome) then .cfloat
  else .cstr

/-- Parse one cell at a given column type (blank cells are missing). -/
def parseCellAs : CType → String → Value
  | .cstr, s => if s = "" then .na else .str s
  | .cint, s => .int ((parseIntLit s.data).getD 0)
  | .cfloat, s => if s = "" then .na else .float ((parseDecLit s.data).getD 0)

/-- `pd.read_csv(p, dtype=cs.DTYPE, encoding="utf-8-sig")` on a well-formed
file: columns are determined by the header; each column is typed by
`inferColType` on its raw header name and parsed cell-wise. -/
def read_csv (r : Rendered) : DataFrame :=
  let types := (List.range r.header.length).map fun j =>
    inferColType (r.header.getD j "") (colCells r j)
  ⟨r.header,
   r.rows.map fun row =>
     (List.range r.header.length).map fun j =>
       parseCellAs (types.getD j .cstr) (row.getD j "")⟩

/-- Modelled from the spec: surrounding-whitespace removal (`str.strip`),
written over the character list so it is kernel-computable. -/
def stripName (s : String) : String :=
  ⟨((s.data.dropWhile Char.isWhitespace).reverse.dropWhile
      Char.isWhitespace).reverse⟩

/-- Modelled from the spec: `cleaners.clean_column_names` trims surrounding
whitespace from the column names. -/
def clean_column_names (df : DataFrame) : DataFrame :=
  ⟨df.cols.map stripName, df.rows⟩

/-- The contents of a file in a bundle: a well-formed table file, or a file
on which `pd.read_csv` raises a parse error. -/
inductive FileContent where
  | good (r : Rendered)
  | malformed
deriving DecidableEq, Repr

/-- A directory entry as observed by `_read_feed_from_path`: the path stem
and suffix, whether it is a regular file, its byte size, and its contents. -/
structure DirEntry where
  stem : String
  suffix : String
  isFile : Bool
  size : Nat
  content : FileContent
deriving DecidableEq, Repr

/-- The parse error raised by `pd.read_csv` on a malformed file. -/
def parseErrMsg : String := "ParserError: malformed CSV"

/-- The file loop of `_read_feed_from_path`: skip non-files, zero-size files,
non-`.txt` files and unrecognized stems; parse the rest, storing the cleaned
DataFrame only when it is non-empty.  A malformed file aborts the loop. -/
def readLoop (ts : TName → Option DataFrame) :
    List DirEntry → Except String (TName → Option DataFrame)
  | [] => .ok ts
  | e :: es =>
      match tableOfStem e.stem with
      | some n =>
          if e.isFile = true ∧ e.size ≠ 0 ∧ e.suffix = ".txt" then
            match e.content with
            | .malformed => .error parseErrMsg
            | .good r =>
                let df := read_csv r
                if df.isEmpty then readLoop ts es
                else readLoop (Function.update ts n (some (clean_column_names df))) es
          else readLoop ts es
      | none => readLoop ts es

/-- The input to `_read_feed_from_path`: a directory, or a zip archive that
unpacks to the given entries inside a scratch temporary directory. -/
inductive PathInput where
  | dir (entries : List DirEntry)
  | zipArchive (entries : List DirEntry)

/-- The observable outcome of a loader call: the returned Feed or raised
error, and whether no scratch directory created by the call remains. -/
structure ReadOutcome where
  result : Except String Feed
  scratchReleased : Bool

/-- `_read_feed_from_path`: unpack archives to a scratch directory, run the
file loop, call `tmp_dir.cleanup()` manually after the loop, then construct
the Feed.  A failure inside the loop propagates before the manual cleanup
runs, so on that path the scratch directory of an archive input remains. -/
def readFeedFromPath (p : PathInput) (du : String) : ReadOutcome :=
  match p with
  | .dir es =>
      match readLoop (fun _ => none) es with
      | .ok ts => { result := Feed.init du ts, scratchReleased := true }
      | .error e => { result := .error e, scratchReleased := true }
  | .zipArchive es =>
      match readLoop (fun _ => none) es with
      | .ok ts => { result := Feed.init du ts, scratchReleased := true }
      | .error e => { result := .error e, scratchReleased := false }

/-- The observable outcome of `Feed.write` to a `.zip` destination. -/
structure WriteOutcome where
  result : Except String (TName → Option Rendered)
  scratchReleased : Bool

/-- `Feed.write` with a `.zip` destination: the tables are written into a
scratch temporary directory, which is archived and then cleaned up manually;
a serialization failure propagates before the cleanup runs. -/
def writeFeedZip (f : Feed) (nd : Nat) : WriteOutcome :=
  match f.write nd with
  | .ok files => { result := .ok files, scratchReleased := true }
  | .error e => { result := .error e, scratchReleased := false }

/-! ### Object identity: a store model for the copy/write frame properties

`DataFrame.copy()` and `deepcopy` return fresh objects; to state that
mutating a copy's table in place cannot affect the original we make object
identity explicit: table attributes hold references into a store of
DataFrame objects, and in-place mutation is a store update at a reference. -/

/-- A heap of DataFrame objects. -/
structure Store where
  cells : List DataFrame

/-- Dereference (out-of-range reads return a default table; never reached
under the validity hypotheses used below). -/
def Store.get (s : Store) (r : Nat) : DataFrame := s.cells.getD r ⟨[], []⟩

/-- Allocate a fresh object, returning the grown store and the new reference. -/
def Store.alloc (s : Store) (df : DataFrame) : Store × Nat :=
  (⟨s.cells ++ [df]⟩, s.cells.length)

/-- In-place mutation of the object at reference `r`. -/
def Store.setRef (s : Store) (r : Nat) (df : DataFrame) : Store :=
  ⟨s.cells.set r df⟩

/-- A Feed whose table slots are references into a store; `dist_units` and
the derived indexes are immutable values as in `Feed`. -/
structure FeedR where
  dist_units : String
  tbl : TName → Option Nat
  trips_i : Option (List (Value × List Value))
  calendar_i : Option (List (Value × List Value))
  calendar_dates_g : Option (List ((Value × Value) × List Value))

/-- All table references of the Feed point into the store. -/
def FeedR.validIn (f : FeedR) (s : Store) : Prop :=
  ∀ n r, f.tbl n = some r → r < s.cells.length

/-- The non-`dist_units` attribute keys that `Feed.copy` iterates
(`set(FEED_ATTRS) - {"dist_units"}`): the public table attributes plus the
three private derived-index attributes. -/
inductive AttrKey where
  | table (n : TName)
  | trips_i
  | calendar_i
  | calendar_dates_g
deriving DecidableEq, Repr

/-- One listing of the attribute keys.  The source iterates the *set* of
keys in unspecified order, so the copy theorem quantifies over every order
covering the keys; this list is the order used by the concrete witness. -/
def attrKeys : List AttrKey :=
  tableNames.map AttrKey.table ++
    [AttrKey.trips_i, AttrKey.calendar_i, AttrKey.calendar_dates_g]

theorem mem_attrKeys : ∀ k : AttrKey, k ∈ attrKeys := by
  intro k
  cases k with
  | table n => cases n <;> decide
  | trips_i => decide
  | calendar_i => decide
  | calendar_dates_g => decide

/-- The index recomputation a table-attribute assignment performs through
the `@property` setters: assigning `trips`, `calendar` or `calendar_dates`
recomputes the corresponding derived index from the assigned value (a
`KeyError` when a non-empty value misses a key column); assigning any other
table attribute leaves the indexes alone. -/
def idxUpdate (g : FeedR) (n : TName) (v : Option DataFrame) :
    Except String FeedR :=
  match n with
  | .trips => (derive1 v "trip_id").map fun i => { g with trips_i := i }
  | .calendar => (derive1 v "service_id").map fun i => { g with calendar_i := i }
  | .calendar_dates => (deriveG v).map fun i => { g with calendar_dates_g := i }
  | _ => .ok g

/-- `setattr(other, key, val)` for a table attribute in the store model: the
property setter stores the reference `ro` in the slot and, for the keyed
tables, recomputes the derived index from the assigned value `v`. -/
def FeedR.setSlot (g : FeedR) (n : TName) (ro : Option Nat)
    (v : Option DataFrame) : Except String FeedR :=
  (idxUpdate g n v).map fun g1 => { g1 with tbl := Function.update g1.tbl n ro }

/-- One iteration of the attribute loop of `Feed.copy`: a present table is
duplicated by `value.copy()` into a freshly allocated object and assigned
through the property setter; an absent table is assigned as `None`; a
private index attribute is deep-copied directly (value-level here, since
index values are immutable in this model). -/
def copyStep (f : FeedR) (k : AttrKey) (s : Store) (g : FeedR) :
    Except String (Store × FeedR) :=
  match k with
  | .table n =>
      match f.tbl n with
      | none => (g.setSlot n none none).map fun g1 => (s, g1)
      | some r =>
          let p := s.alloc (s.get r)
          (g.setSlot n (some p.2) (some (s.get r))).map fun g1 => (p.1, g1)
  | .trips_i => .ok (s, { g with trips_i := f.trips_i })
  | .calendar_i => .ok (s, { g with calendar_i := f.calendar_i })
  | .calendar_dates_g => .ok (s, { g with calendar_dates_g := f.calendar_dates_g })

/-- The attribute loop of `Feed.copy` over the iteration order `l`; a
`KeyError` raised by a property setter propagates and aborts the loop. -/
def copyAttrs (f : FeedR) : List AttrKey → Store → FeedR →
    Except String (Store × FeedR)
  | [], s, g => .ok (s, g)
  | k :: ks, s, g =>
      match copyStep f k s g with
      | .error e => .error e
      | .ok p => copyAttrs f ks p.1 p.2

/-- `Feed.copy` in the store model at iteration order `l`:
`other = Feed(dist_units=self.dist_units)` validates the distance units and
starts every table slot and index at `None`, then every attribute of
`set(FEED_ATTRS) - {"dist_units"}` is assigned as in `copyStep`. -/
def FeedR.copy (f : FeedR) (s : Store) (l : List AttrKey) :
    Except String (Store × FeedR) :=
  if f.dist_units ∉ DIST_UNITS then .error distUnitsMsg
  else
    copyAttrs f l s
      { dist_units := f.dist_units, tbl := fun _ => none,
        trips_i := none, calendar_i := none, calendar_dates_g := none }

/-- Index consistency of a store-model Feed: each derived index equals what
the setter would recompute from the current table value; in particular every
non-empty keyed table carries its key columns. -/
def FeedR.indexConsistentIn (f : FeedR) (s : Store) : Prop :=
  derive1 ((f.tbl .trips).map s.get) "trip_id" = .ok f.trips_i ∧
  derive1 ((f.tbl .calendar).map s.get) "service_id" = .ok f.calendar_i ∧
  deriveG ((f.tbl .calendar_dates).map s.get) = .ok f.calendar_dates_g

/-- The per-table loop of `Feed.write` in the store model: `f = f.copy()`
allocates a fresh object, the integer-column coercion mutates that fresh
object in place, and the rendered file is produced from it.  A coercion
failure (`astype` raise) aborts the loop. -/
def writeLoopR (f : FeedR) (nd : Nat) :
    List TName → Store → (TName → Option Rendered) →
    Store × Except String (TName → Option Rendered)
  | [], s, acc => (s, .ok acc)
  | n :: ns, s, acc =>
      match f.tbl n with
      | none => writeLoopR f nd ns s acc
      | some r =>
          let df := s.get r
          let p := s.alloc df
          match coerceInts df with
          | .error e => (p.1, .error e)
          | .ok u =>
              writeLoopR f nd ns (p.1.setRef p.2 u)
                (Function.update acc n
                  (some ⟨u.cols, u.rows.map (fun row => row.map (renderCell nd))⟩))

/-- `Feed.write` (store model). -/
def FeedR.writeR (f : FeedR) (s : Store) (nd : Nat) :
    Store × Except String (TName → Option Rendered) :=
  writeLoopR f nd tableNames s (fun _ => none)

theorem getD_set_ne {α : Type} (l : List α) {i j : Nat} (h : i ≠ j) (a d : α) :
    (l.set i a).getD j d = l.getD j d := by
  simp [List.getD_eq_getElem?_getD, List.getElem?_set_ne h]

theorem setSlot_trips (g : FeedR) (ro : Option Nat) (v : Option DataFrame)
    {i : Option (List (Value × List Value))} (h : derive1 v "trip_id" = .ok i) :
    g.setSlot .trips ro v =
      .ok { g with tbl := Function.update g.tbl .trips ro, trips_i := i } := by
  simp only [FeedR.setSlot, idxUpdate]
  rw [h]
  rfl

theorem setSlot_calendar (g : FeedR) (ro : Option Nat) (v : Option DataFrame)
    {i : Option (List (Value × List Value))}
    (h : derive1 v "service_id" = .ok i) :
    g.setSlot .calendar ro v =
      .ok { g with tbl := Function.update g.tbl .calendar ro, calendar_i := i } := by
  simp only [FeedR.setSlot, idxUpdate]
  rw [h]
  rfl

theorem setSlot_calendar_dates (g : FeedR) (ro : Option Nat)
    (v : Option DataFrame) {i : Option (List ((Value × Value) × List Value))}
    (h : deriveG v = .ok i) :
    g.setSlot .calendar_dates ro v =
      .ok { g with tbl := Function.update g.tbl .calendar_dates ro, calendar_dates_g := i } := by
  simp only [FeedR.setSlot, idxUpdate]
  rw [h]
  rfl

theorem setSlot_other (g : FeedR) (n : TName) (ro : Option Nat)
    (v : Option DataFrame) (h1 : n ≠ .trips) (h2 : n ≠ .calendar)
    (h3 : n ≠ .calendar_dates) :
    g.setSlot n ro v = .ok { g with tbl := Function.update g.tbl n ro } := by
  cases n
  case trips => exact absurd rfl h1
  case calendar => exact absurd rfl h2
  case calendar_dates => exact absurd rfl h3
  all_goals rfl

theorem copyStep_spec (f : FeedR) (k : AttrKey) (s : Store) (g : FeedR)
    (hv : ∀ n r, f.tbl n = some r → r < s.cells.length)
    (hti : derive1 ((f.tbl .trips).map s.get) "trip_id" = .ok f.trips_i)
    (hci : derive1 ((f.tbl .calendar).map s.get) "service_id" = .ok f.calendar_i)
    (hgi : deriveG ((f.tbl .calendar_dates).map s.get) = .ok f.calendar_dates_g) :
    ∃ s1 g1, copyStep f k s g = .ok (s1, g1) ∧
      s.cells.length ≤ s1.cells.length ∧
      (∀ i, i < s.cells.length → s1.get i = s.get i) ∧
      g1.dist_units = g.dist_units ∧
      ((k = AttrKey.trips_i ∨ k = AttrKey.table .trips) →
        g1.trips_i = f.trips_i) ∧
      (¬(k = AttrKey.trips_i ∨ k = AttrKey.table .trips) →
        g1.trips_i = g.trips_i) ∧
      ((k = AttrKey.calendar_i ∨ k = AttrKey.table .calendar) →
        g1.calendar_i = f.calendar_i) ∧
      (¬(k = AttrKey.calendar_i ∨ k = AttrKey.table .calendar) →
        g1.calendar_i = g.calendar_i) ∧
      ((k = AttrKey.calendar_dates_g ∨ k = AttrKey.table .calendar_dates) →
        g1.calendar_dates_g = f.calendar_dates_g) ∧
      (¬(k = AttrKey.calendar_dates_g ∨ k = AttrKey.table .calendar_dates) →
        g1.calendar_dates_g = g.calendar_dates_g) ∧
      (∀ n, k ≠ AttrKey.table n → g1.tbl n = g.tbl n) ∧
      (∀ n, k = AttrKey.table n →
        (f.tbl n = none → g1.tbl n = none) ∧
        ∀ r, f.tbl n = some r → ∃ r', g1.tbl n = some r' ∧
          s.cells.length ≤ r' ∧ r' < s1.cells.length ∧ s1.get r' = s.get r) := by
  cases k with
  | trips_i =>
      refine ⟨s, { g with trips_i := f.trips_i }, rfl, le_refl _,
        fun i _ => rfl, rfl, fun _ => rfl, ?_, ?_, fun _ => rfl, ?_,
        fun _ => rfl, fun n _ => rfl, fun n h => AttrKey.noConfusion h⟩
      · intro h
        exact absurd (Or.inl rfl) h
      · rintro (h | h) <;> exact AttrKey.noConfusion h
      · rintro (h | h) <;> exact AttrKey.noConfusion h
  | calendar_i =>
      refine ⟨s, { g with calendar_i := f.calendar_i }, rfl, le_refl _,
        fun i _ => rfl, rfl, ?_, fun _ => rfl, fun _ => rfl, ?_, ?_,
        fun _ => rfl, fun n _ => rfl, fun n h => AttrKey.noConfusion h⟩
      · rintro (h | h) <;> exact AttrKey.noConfusion h
      · intro h
        exact absurd (Or.inl rfl) h
      · rintro (h | h) <;> exact AttrKey.noConfusion h
  | calendar_dates_g =>
      refine ⟨s, { g with calendar_dates_g := f.calendar_dates_g }, rfl,
        le_refl _, fun i _ => rfl, rfl, ?_, fun _ => rfl, ?_, fun _ => rfl,
        fun _ => rfl, ?_, fun n _ => rfl, fun n h => AttrKey.noConfusion h⟩
      · rintro (h | h) <;> exact AttrKey.noConfusion h
      · rintro (h | h) <;> exact AttrKey.noConfusion h
      · intro h
        exact absurd (Or.inl rfl) h
  | table n =>
      cases hfn : f.tbl n with
      | none =>
          by_cases h1 : n = TName.trips
          · subst h1
            have hd0 : derive1 (none : Option DataFrame) "trip_id" =
                .ok f.trips_i := by
              rw [hfn] at hti
              exact hti
            have hni : f.trips_i = none := by
              have h4 : (Except.ok (none : Option (List (Value × List Value))) :
                  Except String (Option (List (Value × List Value)))) =
                  .ok f.trips_i := hd0
              injection h4 with h5
              exact h5.symm
            refine ⟨s, { g with tbl := Function.update g.tbl TName.trips none, trips_i := none },
              ?_, le_refl _, fun i _ => rfl, rfl,
              fun _ => hni.symm, ?_, ?_, fun _ => rfl, ?_, fun _ => rfl,
              ?_, ?_⟩
            · simp only [copyStep, hfn]
              rw [setSlot_trips g none none rfl]
              rfl
            · intro h
              exact absurd (Or.inr rfl) h
            · rintro (h | h) <;> exact absurd h (by decide)
            · rintro (h | h) <;> exact absurd h (by decide)
            · intro m hm
              exact Function.update_noteq
                (fun he => hm (congrArg AttrKey.table he.symm)) _ _
            · intro m hm
              injection hm with hm2
              subst hm2
              refine ⟨fun _ => show Function.update g.tbl TName.trips none TName.trips = none from Function.update_same _ _ _, fun r hr => ?_⟩
              rw [hfn] at hr
              cases hr
          · by_cases h2 : n = TName.calendar
            · subst h2
              have hd0 : derive1 (none : Option DataFrame) "service_id" =
                  .ok f.calendar_i := by
                rw [hfn] at hci
                exact hci
              have hni : f.calendar_i = none := by
                have h4 : (Except.ok (none : Option (List (Value × List Value))) :
                    Except String (Option (List (Value × List Value)))) =
                    .ok f.calendar_i := hd0
                injection h4 with h5
                exact h5.symm
              refine ⟨s, { g with tbl := Function.update g.tbl TName.calendar none, calendar_i := none },
                ?_, le_refl _, fun i _ => rfl, rfl,
                ?_, fun _ => rfl, fun _ => hni.symm, ?_, ?_, fun _ => rfl,
                ?_, ?_⟩
              · simp only [copyStep, hfn]
                rw [setSlot_calendar g none none rfl]
                rfl
              · rintro (h | h) <;> exact absurd h (by decide)
              · intro h
                exact absurd (Or.inr rfl) h
              · rintro (h | h) <;> exact absurd h (by decide)
              · intro m hm
                exact Function.update_noteq
                  (fun he => hm (congrArg AttrKey.table he.symm)) _ _
              · intro m hm
                injection hm with hm2
                subst hm2
                refine ⟨fun _ => show Function.update g.tbl TName.calendar none TName.calendar = none from Function.update_same _ _ _, fun r hr => ?_⟩
                rw [hfn] at hr
                cases hr
            · by_cases h3 : n = TName.calendar_dates
              · subst h3
                have hd0 : deriveG (none : Option DataFrame) =
                    .ok f.calendar_dates_g := by
                  rw [hfn] at hgi
                  exact hgi
                have hni : f.calendar_dates_g = none := by
                  have h4 : (Except.ok
                      (none : Option (List ((Value × Value) × List Value))) :
                      Except String
                        (Option (List ((Value × Value) × List Value)))) =
                      .ok f.calendar_dates_g := hd0
                  injection h4 with h5
                  exact h5.symm
                refine ⟨s, { g with tbl := Function.update g.tbl TName.calendar_dates none, calendar_dates_g := none },
                  ?_, le_refl _, fun i _ => rfl,
                  rfl, ?_, fun _ => rfl, ?_, fun _ => rfl,
                  fun _ => hni.symm, ?_, ?_, ?_⟩
                · simp only [copyStep, hfn]
                  rw [setSlot_calendar_dates g none none rfl]
                  rfl
                · rintro (h | h) <;> exact absurd h (by decide)
                · rintro (h | h) <;> exact absurd h (by decide)
                · intro h
                  exact absurd (Or.inr rfl) h
                · intro m hm
                  exact Function.update_noteq
                    (fun he => hm (congrArg AttrKey.table he.symm)) _ _
                · intro m hm
                  injection hm with hm2
                  subst hm2
                  refine ⟨fun _ => show Function.update g.tbl TName.calendar_dates none TName.calendar_dates = none from Function.update_same _ _ _,
                    fun r hr => ?_⟩
                  rw [hfn] at hr
                  cases hr
              · refine ⟨s, { g with tbl := Function.update g.tbl n none },
                  ?_, le_refl _, fun i _ => rfl, rfl, ?_, fun _ => rfl, ?_,
                  fun _ => rfl, ?_, fun _ => rfl, ?_, ?_⟩
                · simp only [copyStep, hfn]
                  rw [setSlot_other g n none none h1 h2 h3]
                  rfl
                · rintro (h | h)
                  · exact AttrKey.noConfusion h
                  · injection h with h4
                    exact absurd h4 h1
                · rintro (h | h)
                  · exact AttrKey.noConfusion h
                  · injection h with h4
                    exact absurd h4 h2
                · rintro (h | h)
                  · exact AttrKey.noConfusion h
                  · injection h with h4
                    exact absurd h4 h3
                · intro m hm
                  exact Function.update_noteq
                    (fun he => hm (congrArg AttrKey.table he.symm)) _ _
                · intro m hm
                  injection hm with hm2
                  subst hm2
                  refine ⟨fun _ => Function.update_same _ _ _,
                    fun r hr => ?_⟩
                  rw [hfn] at hr
                  cases hr
      | some r =>
          by_cases h1 : n = TName.trips
          · subst h1
            have hd0 : derive1 (some (s.get r)) "trip_id" = .ok f.trips_i := by
              rw [hfn] at hti
              exact hti
            refine ⟨⟨s.cells ++ [s.get r]⟩,
              { g with tbl := Function.update g.tbl TName.trips (some s.cells.length), trips_i := f.trips_i },
              ?_, ?_, ?_, rfl, fun _ => rfl, ?_, ?_, fun _ => rfl, ?_,
              fun _ => rfl, ?_, ?_⟩
            · simp only [copyStep, hfn, Store.alloc]
              rw [setSlot_trips g (some s.cells.length) (some (s.get r)) hd0]
              rfl
            · simp only [List.length_append, List.length_singleton]
              omega
            · intro i hi
              simp only [Store.get]
              exact List.getD_append _ _ _ _ hi
            · intro h
              exact absurd (Or.inr rfl) h
            · rintro (h | h) <;> exact absurd h (by decide)
            · rintro (h | h) <;> exact absurd h (by decide)
            · intro m hm
              exact Function.update_noteq
                (fun he => hm (congrArg AttrKey.table he.symm)) _ _
            · intro m hm
              injection hm with hm2
              subst hm2
              refine ⟨fun hc => ?_, fun rr hrr => ?_⟩
              · rw [hfn] at hc
                cases hc
              · rw [hfn] at hrr
                injection hrr with hrr2
                subst hrr2
                refine ⟨s.cells.length, show Function.update g.tbl TName.trips (some s.cells.length) TName.trips = some s.cells.length from Function.update_same _ _ _, le_refl _,
                  ?_, ?_⟩
                · simp only [List.length_append, List.length_singleton]
                  omega
                · simp only [Store.get]
                  rw [List.getD_append_right _ _ _ _ (le_refl _)]
                  simp
          · by_cases h2 : n = TName.calendar
            · subst h2
              have hd0 : derive1 (some (s.get r)) "service_id" =
                  .ok f.calendar_i := by
                rw [hfn] at hci
                exact hci
              refine ⟨⟨s.cells ++ [s.get r]⟩,
                { g with tbl := Function.update g.tbl TName.calendar (some s.cells.length), calendar_i := f.calendar_i },
                ?_, ?_, ?_, rfl, ?_, fun _ => rfl, fun _ => rfl, ?_, ?_,
                fun _ => rfl, ?_, ?_⟩
              · simp only [copyStep, hfn, Store.alloc]
                rw [setSlot_calendar g (some s.cells.length) (some (s.get r))
                  hd0]
                rfl
              · simp only [List.length_append, List.length_singleton]
                omega
              · intro i hi
                simp only [Store.get]
                exact List.getD_append _ _ _ _ hi
              · rintro (h | h) <;> exact absurd h (by decide)
              · intro h
                exact absurd (Or.inr rfl) h
              · rintro (h | h) <;> exact absurd h (by decide)
              · intro m hm
                exact Function.update_noteq
                  (fun he => hm (congrArg AttrKey.table he.symm)) _ _
              · intro m hm
                injection hm with hm2
                subst hm2
                refine ⟨fun hc => ?_, fun rr hrr => ?_⟩
                · rw [hfn] at hc
                  cases hc
                · rw [hfn] at hrr
                  injection hrr with hrr2
                  subst hrr2
                  refine ⟨s.cells.length, show Function.update g.tbl TName.calendar (some s.cells.length) TName.calendar = some s.cells.length from Function.update_same _ _ _,
                    le_refl _, ?_, ?_⟩
                  · simp only [List.length_append, List.length_singleton]
                    omega
                  · simp only [Store.get]
                    rw [List.getD_append_right _ _ _ _ (le_refl _)]
                    simp
            · by_cases h3 : n = TName.calendar_dates
              · subst h3
                have hd0 : deriveG (some (s.get r)) =
                    .ok f.calendar_dates_g := by
                  rw [hfn] at hgi
                  exact hgi
                refine ⟨⟨s.cells ++ [s.get r]⟩,
                  { g with tbl := Function.update g.tbl TName.calendar_dates (some s.cells.length), calendar_dates_g := f.calendar_dates_g },
                  ?_, ?_, ?_, rfl, ?_, fun _ => rfl, ?_, fun _ => rfl,
                  fun _ => rfl, ?_, ?_, ?_⟩
                · simp only [copyStep, hfn, Store.alloc]
                  rw [setSlot_calendar_dates g (some s.cells.length)
                    (some (s.get r)) hd0]
                  rfl
                · simp only [List.length_append, List.length_singleton]
                  omega
                · intro i hi
                  simp only [Store.get]
                  exact List.getD_append _ _ _ _ hi
                · rintro (h | h) <;> exact absurd h (by decide)
                · rintro (h | h) <;> exact absurd h (by decide)
                · intro h
                  exact absurd (Or.inr rfl) h
                · intro m hm
                  exact Function.update_noteq
                    (fun he => hm (congrArg AttrKey.table he.symm)) _ _
                · intro m hm
                  injection hm with hm2
                  subst hm2
                  refine ⟨fun hc => ?_, fun rr hrr => ?_⟩
                  · rw [hfn] at hc
                    cases hc
                  · rw [hfn] at hrr
                    injection hrr with hrr2
                    subst hrr2
                    refine ⟨s.cells.length, show Function.update g.tbl TName.calendar_dates (some s.cells.length) TName.calendar_dates = some s.cells.length from Function.update_same _ _ _,
                      le_refl _, ?_, ?_⟩
                    · simp only [List.length_append, List.length_singleton]
                      omega
                    · simp only [Store.get]
                      rw [List.getD_append_right _ _ _ _ (le_refl _)]
                      simp
              · refine ⟨⟨s.cells ++ [s.get r]⟩,
                  { g with tbl := Function.update g.tbl n (some s.cells.length) },
                  ?_, ?_, ?_, rfl, ?_, fun _ => rfl, ?_, fun _ => rfl, ?_,
                  fun _ => rfl, ?_, ?_⟩
                · simp only [copyStep, hfn, Store.alloc]
                  rw [setSlot_other g n (some s.cells.length)
                    (some (s.get r)) h1 h2 h3]
                  rfl
                · simp only [List.length_append, List.length_singleton]
                  omega
                · intro i hi
                  simp only [Store.get]
                  exact List.getD_append _ _ _ _ hi
                · rintro (h | h)
                  · exact AttrKey.noConfusion h
                  · injection h with h4
                    exact absurd h4 h1
                · rintro (h | h)
                  · exact AttrKey.noConfusion h
                  · injection h with h4
                    exact absurd h4 h2
                · rintro (h | h)
                  · exact AttrKey.noConfusion h
                  · injection h with h4
                    exact absurd h4 h3
                · intro m hm
                  exact Function.update_noteq
                    (fun he => hm (congrArg AttrKey.table he.symm)) _ _
                · intro m hm
                  injection hm with hm2
                  subst hm2
                  refine ⟨fun hc => ?_, fun rr hrr => ?_⟩
                  · rw [hfn] at hc
                    cases hc
                  · rw [hfn] at hrr
                    injection hrr with hrr2
                    subst hrr2
                    refine ⟨s.cells.length, Function.update_same _ _ _,
                      le_refl _, ?_, ?_⟩
                    · simp only [List.length_append, List.length_singleton]
                      omega
                    · simp only [Store.get]
                      rw [List.getD_append_right _ _ _ _ (le_refl _)]
                      simp

theorem copyAttrs_spec (f : FeedR) :
    ∀ (l : List AttrKey) (s : Store) (g : FeedR),
      (∀ n r, f.tbl n = some r → r < s.cells.length) →
      derive1 ((f.tbl .trips).map s.get) "trip_id" = .ok f.trips_i →
      derive1 ((f.tbl .calendar).map s.get) "service_id" = .ok f.calendar_i →
      deriveG ((f.tbl .calendar_dates).map s.get) = .ok f.calendar_dates_g →
      ∃ s' g', copyAttrs f l s g = .ok (s', g') ∧
        s.cells.length ≤ s'.cells.length ∧
        (∀ i, i < s.cells.length → s'.get i = s.get i) ∧
        g'.dist_units = g.dist_units ∧
        ((AttrKey.trips_i ∈ l ∨ AttrKey.table .trips ∈ l) →
          g'.trips_i = f.trips_i) ∧
        ((AttrKey.trips_i ∉ l ∧ AttrKey.table .trips ∉ l) →
          g'.trips_i = g.trips_i) ∧
        ((AttrKey.calendar_i ∈ l ∨ AttrKey.table .calendar ∈ l) →
          g'.calendar_i = f.calendar_i) ∧
        ((AttrKey.calendar_i ∉ l ∧ AttrKey.table .calendar ∉ l) →
          g'.calendar_i = g.calendar_i) ∧
        ((AttrKey.calendar_dates_g ∈ l ∨ AttrKey.table .calendar_dates ∈ l) →
          g'.calendar_dates_g = f.calendar_dates_g) ∧
        ((AttrKey.calendar_dates_g ∉ l ∧ AttrKey.table .calendar_dates ∉ l) →
          g'.calendar_dates_g = g.calendar_dates_g) ∧
        (∀ n, AttrKey.table n ∉ l → g'.tbl n = g.tbl n) ∧
        (∀ n, AttrKey.table n ∈ l →
          (f.tbl n = none → g'.tbl n = none) ∧
          ∀ r, f.tbl n = some r → ∃ r', g'.tbl n = some r' ∧
            s.cells.length ≤ r' ∧ r' < s'.cells.length ∧
            s'.get r' = s.get r) := by
  intro l
  induction l with
  | nil =>
      intro s g hv hti hci hgi
      refine ⟨s, g, rfl, le_refl _, fun i _ => rfl, rfl, ?_, fun _ => rfl,
        ?_, fun _ => rfl, ?_, fun _ => rfl, fun n _ => rfl, ?_⟩
      · rintro (h | h) <;> simp at h
      · rintro (h | h) <;> simp at h
      · rintro (h | h) <;> simp at h
      · intro n hn
        simp at hn
  | cons k ks ih =>
      intro s g hv hti hci hgi
      obtain ⟨s1, g1, hstep, hle1, hget1, hdu1, tp1, tn1, cp1, cn1, gp1, gn1,
        ne1, eq1⟩ := copyStep_spec f k s g hv hti hci hgi
      have hv1 : ∀ n r, f.tbl n = some r → r < s1.cells.length :=
        fun n r h => lt_of_lt_of_le (hv n r h) hle1
      have htr : ∀ o : Option Nat, (∀ r, o = some r → r < s.cells.length) →
          o.map s1.get = o.map s.get := by
        intro o ho
        cases o with
        | none => rfl
        | some r =>
            simp only [Option.map_some']
            rw [hget1 r (ho r rfl)]
      have hti1 : derive1 ((f.tbl .trips).map s1.get) "trip_id" =
          .ok f.trips_i := by
        rw [htr _ (hv .trips)]
        exact hti
      have hci1 : derive1 ((f.tbl .calendar).map s1.get) "service_id" =
          .ok f.calendar_i := by
        rw [htr _ (hv .calendar)]
        exact hci
      have hgi1 : deriveG ((f.tbl .calendar_dates).map s1.get) =
          .ok f.calendar_dates_g := by
        rw [htr _ (hv .calendar_dates)]
        exact hgi
      obtain ⟨s', g', hrun, hle2, hget2, hdu2, tp2, tn2, cp2, cn2, gp2, gn2,
        ne2, eq2⟩ := ih s1 g1 hv1 hti1 hci1 hgi1
      refine ⟨s', g', ?_, le_trans hle1 hle2, ?_, hdu2.trans hdu1, ?_, ?_,
        ?_, ?_, ?_, ?_, ?_, ?_⟩
      · simp only [copyAttrs, hstep]
        exact hrun
      · intro i hi
        rw [hget2 i (lt_of_lt_of_le hi hle1), hget1 i hi]
      · intro h
        by_cases hks : AttrKey.trips_i ∈ ks ∨ AttrKey.table .trips ∈ ks
        · exact tp2 hks
        · have hk : k = AttrKey.trips_i ∨ k = AttrKey.table .trips := by
            rcases h with h | h
            · rcases List.mem_cons.mp h with h | h
              · exact Or.inl h.symm
              · exact absurd (Or.inl h) hks
            · rcases List.mem_cons.mp h with h | h
              · exact Or.inr h.symm
              · exact absurd (Or.inr h) hks
          have hnot : AttrKey.trips_i ∉ ks ∧ AttrKey.table .trips ∉ ks :=
            ⟨fun hx => hks (Or.inl hx), fun hx => hks (Or.inr hx)⟩
          rw [tn2 hnot]
          exact tp1 hk
      · rintro ⟨hm1, hm2⟩
        have hk : ¬(k = AttrKey.trips_i ∨ k = AttrKey.table .trips) := by
          rintro (rfl | rfl)
          · exact hm1 (List.mem_cons_self _ _)
          · exact hm2 (List.mem_cons_self _ _)
        rw [tn2 ⟨fun hx => hm1 (List.mem_cons_of_mem _ hx),
          fun hx => hm2 (List.mem_cons_of_mem _ hx)⟩]
        exact tn1 hk
      · intro h
        by_cases hks : AttrKey.calendar_i ∈ ks ∨ AttrKey.table .calendar ∈ ks
        · exact cp2 hks
        · have hk : k = AttrKey.calendar_i ∨ k = AttrKey.table .calendar := by
            rcases h with h | h
            · rcases List.mem_cons.mp h with h | h
              · exact Or.inl h.symm
              · exact absurd (Or.inl h) hks
            · rcases List.mem_cons.mp h with h | h
              · exact Or.inr h.symm
              · exact absurd (Or.inr h) hks
          have hnot : AttrKey.calendar_i ∉ ks ∧
              AttrKey.table .calendar ∉ ks :=
            ⟨fun hx => hks (Or.inl hx), fun hx => hks (Or.inr hx)⟩
          rw [cn2 hnot]
          exact cp1 hk
      · rintro ⟨hm1, hm2⟩
        have hk : ¬(k = AttrKey.calendar_i ∨ k = AttrKey.table .calendar) := by
          rintro (rfl | rfl)
          · exact hm1 (List.mem_cons_self _ _)
          · exact hm2 (List.mem_cons_self _ _)
        rw [cn2 ⟨fun hx => hm1 (List.mem_cons_of_mem _ hx),
          fun hx => hm2 (List.mem_cons_of_mem _ hx)⟩]
        exact cn1 hk
      · intro h
        by_cases hks : AttrKey.calendar_dates_g ∈ ks ∨
            AttrKey.table .calendar_dates ∈ ks
        · exact gp2 hks
        · have hk : k = AttrKey.calendar_dates_g ∨
              k = AttrKey.table .calendar_dates := by
            rcases h with h | h
            · rcases List.mem_cons.mp h with h | h
              · exact Or.inl h.symm
              · exact absurd (Or.inl h) hks
            · rcases List.mem_cons.mp h with h | h
              · exact Or.inr h.symm
              · exact absurd (Or.inr h) hks
          have hnot : AttrKey.calendar_dates_g ∉ ks ∧
              AttrKey.table .calendar_dates ∉ ks :=
            ⟨fun hx => hks (Or.inl hx), fun hx => hks (Or.inr hx)⟩
          rw [gn2 hnot]
          exact gp1 hk
      · rintro ⟨hm1, hm2⟩
        have hk : ¬(k = AttrKey.calendar_dates_g ∨
            k = AttrKey.table .calendar_dates) := by
          rintro (rfl | rfl)
          · exact hm1 (List.mem_cons_self _ _)
          · exact hm2 (List.mem_cons_self _ _)
        rw [gn2 ⟨fun hx => hm1 (List.mem_cons_of_mem _ hx),
          fun hx => hm2 (List.mem_cons_of_mem _ hx)⟩]
        exact gn1 hk
      · intro n hn
        rw [ne2 n (fun hx => hn (List.mem_cons_of_mem _ hx))]
        exact ne1 n (fun hx => hn (by rw [← hx]; exact List.mem_cons_self _ _))
      · intro n hn
        rcases List.mem_cons.mp hn with hh | hks
        · by_cases hmem : AttrKey.table n ∈ ks
          · refine ⟨fun hc => (eq2 n hmem).1 hc, fun r hr => ?_⟩
            obtain ⟨r', hr', hlow, hhi, hval⟩ := (eq2 n hmem).2 r hr
            exact ⟨r', hr', le_trans hle1 hlow, hhi,
              by rw [hval, hget1 r (hv n r hr)]⟩
          · have hstep1 := eq1 n hh.symm
            refine ⟨fun hc => ?_, fun r hr => ?_⟩
            · rw [ne2 n hmem]
              exact hstep1.1 hc
            · obtain ⟨r', hr', hlow, hhi, hval⟩ := hstep1.2 r hr
              refine ⟨r', ?_, hlow, lt_of_lt_of_le hhi hle2, ?_⟩
              · rw [ne2 n hmem]
                exact hr'
              · rw [hget2 r' hhi, hval]
        · refine ⟨fun hc => (eq2 n hks).1 hc, fun r hr => ?_⟩
          obtain ⟨r', hr', hlow, hhi, hval⟩ := (eq2 n hks).2 r hr
          exact ⟨r', hr', le_trans hle1 hlow, hhi,
            by rw [hval, hget1 r (hv n r hr)]⟩

/-- C4: for every iteration order of `set(FEED_ATTRS) - {"dist_units"}`,
`Feed.copy` on a feed whose derived indexes are consistent with its tables
succeeds and returns a feed whose `dist_units` matches, whose derived
indexes duplicate the original's, whose every table slot holds a value-equal
duplicate object, and whose duplicates are fresh: mutating any table object
of the copy in place leaves every table attribute of the original value-wise
unchanged. -/
theorem copy_frame_independence :
    ∀ (s : Store) (f : FeedR) (l : List AttrKey),
      f.validIn s → f.dist_units ∈ DIST_UNITS → f.indexConsistentIn s →
      (∀ k : AttrKey, k ∈ l) →
      ∃ s' g, f.copy s l = .ok (s', g) ∧
        (g.dist_units = f.dist_units ∧ g.trips_i = f.trips_i ∧
          g.calendar_i = f.calendar_i ∧
          g.calendar_dates_g = f.calendar_dates_g) ∧
        (∀ n, (g.tbl n).map s'.get = (f.tbl n).map s.get) ∧
        (∀ n r', g.tbl n = some r' →
          ∀ (df' : DataFrame) (m : TName) (r : Nat), f.tbl m = some r →
            (s'.setRef r' df').get r = s.get r) := by
  intro s f l hv hdu hic hl
  obtain ⟨hti, hci, hgi⟩ := hic
  obtain ⟨s', g', hrun, hle, hget, hdud, tp, tn, cp, cn, gp, gn, hne, heq⟩ :=
    copyAttrs_spec f l s
      { dist_units := f.dist_units, tbl := fun _ => none,
        trips_i := none, calendar_i := none, calendar_dates_g := none }
      hv hti hci hgi
  refine ⟨s', g', ?_, ⟨hdud, tp (Or.inl (hl _)), cp (Or.inl (hl _)),
    gp (Or.inl (hl _))⟩, ?_, ?_⟩
  · show f.copy s l = .ok (s', g')
    simp only [FeedR.copy]
    rw [if_neg (not_not_intro hdu)]
    exact hrun
  · intro n
    cases hfn : f.tbl n with
    | none =>
        rw [(heq n (hl _)).1 hfn]
        rfl
    | some r =>
        obtain ⟨r', hr', _, _, hval⟩ := (heq n (hl _)).2 r hfn
        rw [hr']
        simp only [Option.map_some']
        rw [hval]
  · intro n r' hgr' df' m r hfr
    have hrlow := hv m r hfr
    have hrh : s.cells.length ≤ r' := by
      cases hfn : f.tbl n with
      | none =>
          rw [(heq n (hl _)).1 hfn] at hgr'
          cases hgr'
      | some rr =>
          obtain ⟨r'', hr'', hlow, _, _⟩ := (heq n (hl _)).2 rr hfn
          rw [hr''] at hgr'
          injection hgr' with h2
          exact h2 ▸ hlow
    have hner : r' ≠ r := by omega
    simp only [Store.setRef, Store.get]
    rw [getD_set_ne _ hner]
    exact hget r hrlow

theorem writeLoopR_frame (f : FeedR) (nd : Nat) :
    ∀ (l : List TName) (s : Store) (acc : TName → Option Rendered) (i : Nat),
      i < s.cells.length →
      ((writeLoopR f nd l s acc).1).get i = s.get i := by
  intro l
  induction l with
  | nil => intro s acc i _; rfl
  | cons n ns ih =>
      intro s acc i hi
      simp only [writeLoopR]
      cases hfn : f.tbl n with
      | none => exact ih s acc i hi
      | some r =>
          simp only [Store.alloc]
          cases hc : coerceInts (s.get r) with
          | error e =>
              simp only [Store.get]
              exact List.getD_append _ _ _ _ hi
          | ok u =>
              have hlen : ((⟨s.cells ++ [s.get r]⟩ : Store).setRef
                  s.cells.length u).cells.length = s.cells.length + 1 := by
                simp [Store.setRef]
              rw [ih _ _ i (by omega)]
              simp only [Store.setRef, Store.get]
              rw [getD_set_ne _ (by omega)]
              exact List.getD_append _ _ _ _ hi

/-- C10: `Feed.write` applies the integer-column coercion and rendering to a
per-table copy, so serialization leaves every table attribute of the feed
value-wise unchanged (on the success path and on an aborting coercion
failure alike). -/
theorem write_frame_effect :
    ∀ (s : Store) (f : FeedR) (nd : Nat), f.validIn s →
      ∀ m, (f.tbl m).map ((f.writeR s nd).1).get = (f.tbl m).map s.get := by
  intro s f nd hv m
  cases hfm : f.tbl m with
  | none => rfl
  | some r =>
      simp only [Option.map_some', FeedR.writeR]
      rw [writeLoopR_frame f nd tableNames s (fun _ => none) r (hv m r hfm)]

/-- A one-object store and a Feed referencing it from the trips slot. -/
def store0 : Store := ⟨[⟨["trip_id"], [[.str "t1"]]⟩]⟩

/-- A store-model Feed whose trips slot references object 0 of `store0`,
with its derived trips index consistent with that table. -/
def feedR0 : FeedR :=
  { dist_units := "km", tbl := fun n => if n = .trips then some 0 else none,
    trips_i := some [(.str "t1", [])], calendar_i := none,
    calendar_dates_g := none }

theorem feedR0_validIn_store0 : feedR0.validIn store0 := by
  intro n r h
  simp only [feedR0] at h
  by_cases hn : n = TName.trips
  · rw [if_pos hn] at h
    cases h
    decide
  · rw [if_neg hn] at h
    cases h

/-- Witness for C4: at the concrete store and feed, `copy` at the listed key
order succeeds, duplicates the trips table value and derived index, and
mutating the copy's fresh trips object in place leaves the original's table
unchanged. -/
theorem copy_frame_independence_witness :
    feedR0.validIn store0 ∧ feedR0.dist_units ∈ DIST_UNITS ∧
      feedR0.indexConsistentIn store0 ∧
      ∃ s' g, FeedR.copy feedR0 store0 attrKeys = .ok (s', g) ∧
        g.trips_i = feedR0.trips_i ∧
        (g.tbl .trips).map s'.get = (feedR0.tbl .trips).map store0.get ∧
        ∀ r', g.tbl .trips = some r' →
          (s'.setRef r' ⟨["trip_id"], [[.str "t2"]]⟩).get 0 = store0.get 0 := by
  have hv := feedR0_validIn_store0
  have hdu : feedR0.dist_units ∈ DIST_UNITS := by decide
  have hic : feedR0.indexConsistentIn store0 := ⟨rfl, rfl, rfl⟩
  obtain ⟨s', g, hrun, hidx, hval, hmut⟩ :=
    copy_frame_independence store0 feedR0 attrKeys hv hdu hic mem_attrKeys
  exact ⟨hv, hdu, hic, s', g, hrun, hidx.2.1, hval .trips,
    fun r' hr' => hmut .trips r' hr' ⟨["trip_id"], [[.str "t2"]]⟩ .trips 0 rfl⟩

/-- Witness for C10: at the concrete store, writing leaves the trips table
value unchanged. -/
theorem write_frame_effect_witness :
    (feedR0.tbl .trips).map ((feedR0.writeR store0 6).1).get
      = (feedR0.tbl .trips).map store0.get := by
  exact write_frame_effect store0 feedR0 6 feedR0_validIn_store0 .trips

/-! ### `read_feed` dispatch -/

/-- Which helper `read_feed` delegated to. -/
inductive ReadSource where
  | fromPath | fromUrl
deriving DecidableEq, Repr

/-- The `ValueError` message of `read_feed` when both checks fail. -/
def pathUrlMsg : String := "Path does not exist or URL has bad status."

/-- `read_feed`, with the filesystem existence check and the HTTP HEAD probe
abstracted as boolean oracles and the two fetch helpers abstracted by which
one is called. -/
def read_feed (pathExists headOk : String → Bool) (s : String) :
    Except String ReadSource :=
  if pathExists s then .ok .fromPath
  else if headOk s then .ok .fromUrl
  else .error pathUrlMsg

/-! ### Concrete fixtures used by witnesses and counterexamples -/

/-- A Feed with valid `dist_units` and every table slot absent. -/
def feed0 : Feed :=
  { dist_units := "km", tables := fun _ => none,
    trips_i := none, calendar_i := none, calendar_dates_g := none }

/-- A one-row trips table with a `trip_id` column. -/
def tdfCE : DataFrame :=
  ⟨["trip_id", "route_id"], [[.str "t1", .str "r1"]]⟩

/-- A one-row agency table. -/
def agencyCE : DataFrame :=
  ⟨["agency_name"], [[.str "A"]]⟩

/-! ### Derived-index infrastructure -/

/-- The derived-index invariant of the data model: each derived index is
exactly the one derived from the currently stored source table (hence present
iff that table is present and non-empty). -/
def indexConsistent (f : Feed) : Prop :=
  derive1 (f.tables .trips) "trip_id" = .ok f.trips_i ∧
  derive1 (f.tables .calendar) "service_id" = .ok f.calendar_i ∧
  deriveG (f.tables .calendar_dates) = .ok f.calendar_dates_g

theorem derive1_ok_isSome {v : Option DataFrame} {k : String}
    {i : Option (List (Value × List Value))} (h : derive1 v k = .ok i) :
    i.isSome = true ↔ ∃ df, v = some df ∧ df.isEmpty = false := by
  cases v with
  | none =>
      simp only [derive1] at h
      cases h
      simp
  | some df =>
      simp only [derive1] at h
      by_cases he : df.isEmpty
      · rw [if_pos he] at h
        cases h
        constructor
        · intro hc; simp at hc
        · rintro ⟨df', hdf, hne⟩
          rw [Option.some_inj] at hdf
          subst hdf
          simp [he] at hne
      · rw [if_neg he] at h
        cases hs : set_index df k with
        | ok idx =>
            rw [hs] at h
            simp only [Except.map] at h
            cases h
            exact ⟨fun _ => ⟨df, rfl, by simpa using he⟩, fun _ => rfl⟩
        | error e =>
            rw [hs] at h
            simp [Except.map] at h

theorem deriveG_ok_isSome {v : Option DataFrame}
    {i : Option (List ((Value × Value) × List Value))} (h : deriveG v = .ok i) :
    i.isSome = true ↔ ∃ df, v = some df ∧ df.isEmpty = false := by
  cases v with
  | none =>
      simp only [deriveG] at h
      cases h
      simp
  | some df =>
      simp only [deriveG] at h
      by_cases he : df.isEmpty
      · rw [if_pos he] at h
        cases h
        constructor
        · intro hc; simp at hc
        · rintro ⟨df', hdf, hne⟩
          rw [Option.some_inj] at hdf
          subst hdf
          simp [he] at hne
      · rw [if_neg he] at h
        cases hs : groupby2 df "service_id" "date" with
        | ok idx =>
            rw [hs] at h
            simp only [Except.map] at h
            cases h
            exact ⟨fun _ => ⟨df, rfl, by simpa using he⟩, fun _ => rfl⟩
        | error e =>
            rw [hs] at h
            simp [Except.map] at h

theorem setTable_ok_tables {f f' : Feed} {n : TName} {v : Option DataFrame}
    (h : f.setTable n v = .ok f') :
    f'.tables = Function.update f.tables n v := by
  cases n <;> simp only [Feed.setTable] at h
  case trips =>
    cases hd : derive1 v "trip_id" with
    | ok i => rw [hd] at h; simp only [Except.map] at h; cases h; rfl
    | error e => rw [hd] at h; simp [Except.map] at h
  case calendar =>
    cases hd : derive1 v "service_id" with
    | ok i => rw [hd] at h; simp only [Except.map] at h; cases h; rfl
    | error e => rw [hd] at h; simp [Except.map] at h
  case calendar_dates =>
    cases hd : deriveG v with
    | ok i => rw [hd] at h; simp only [Except.map] at h; cases h; rfl
    | error e => rw [hd] at h; simp [Except.map] at h
  all_goals (cases h; rfl)

theorem setTable_trips_idx {f f' : Feed} {v : Option DataFrame}
    (h : f.setTable .trips v = .ok f') :
    derive1 v "trip_id" = .ok f'.trips_i ∧ f'.calendar_i = f.calendar_i ∧
      f'.calendar_dates_g = f.calendar_dates_g := by
  simp only [Feed.setTable] at h
  cases hd : derive1 v "trip_id" with
  | ok i => rw [hd] at h; simp only [Except.map] at h; cases h; exact ⟨rfl, rfl, rfl⟩
  | error e => rw [hd] at h; simp [Except.map] at h

theorem setTable_calendar_idx {f f' : Feed} {v : Option DataFrame}
    (h : f.setTable .calendar v = .ok f') :
    derive1 v "service_id" = .ok f'.calendar_i ∧ f'.trips_i = f.trips_i ∧
      f'.calendar_dates_g = f.calendar_dates_g := by
  simp only [Feed.setTable] at h
  cases hd : derive1 v "service_id" with
  | ok i => rw [hd] at h; simp only [Except.map] at h; cases h; exact ⟨rfl, rfl, rfl⟩
  | error e => rw [hd] at h; simp [Except.map] at h

theorem setTable_calendar_dates_idx {f f' : Feed} {v : Option DataFrame}
    (h : f.setTable .calendar_dates v = .ok f') :
    deriveG v = .ok f'.calendar_dates_g ∧ f'.trips_i = f.trips_i ∧
      f'.calendar_i = f.calendar_i := by
  simp only [Feed.setTable] at h
  cases hd : deriveG v with
  | ok i => rw [hd] at h; simp only [Except.map] at h; cases h; exact ⟨rfl, rfl, rfl⟩
  | error e => rw [hd] at h; simp [Except.map] at h

theorem setTable_other_idx {f f' : Feed} {n : TName} {v : Option DataFrame}
    (h : f.setTable n v = .ok f')
    (h1 : n ≠ .trips) (h2 : n ≠ .calendar) (h3 : n ≠ .calendar_dates) :
    f'.trips_i = f.trips_i ∧ f'.calendar_i = f.calendar_i ∧
      f'.calendar_dates_g = f.calendar_dates_g := by
  cases n <;> first
    | exact absurd rfl h1
    | exact absurd rfl h2
    | exact absurd rfl h3
    | (simp only [Feed.setTable] at h; cases h; exact ⟨rfl, rfl, rfl⟩)

theorem setTable_indexConsistent {f f' : Feed} {n : TName} {v : Option DataFrame}
    (hf : indexConsistent f) (h : f.setTable n v = .ok f') :
    indexConsistent f' := by
  obtain ⟨ht, hc, hg⟩ := hf
  have htab := setTable_ok_tables h
  by_cases e1 : n = .trips
  · subst e1
    obtain ⟨hd, hci, hgi⟩ := setTable_trips_idx h
    refine ⟨?_, ?_, ?_⟩
    · rw [htab, Function.update_same]; exact hd
    · rw [htab, Function.update_noteq (by simp), hci]; exact hc
    · rw [htab, Function.update_noteq (by simp), hgi]; exact hg
  by_cases e2 : n = .calendar
  · subst e2
    obtain ⟨hd, hti, hgi⟩ := setTable_calendar_idx h
    refine ⟨?_, ?_, ?_⟩
    · rw [htab, Function.update_noteq (by simp), hti]; exact ht
    · rw [htab, Function.update_same]; exact hd
    · rw [htab, Function.update_noteq (by simp), hgi]; exact hg
  by_cases e3 : n = .calendar_dates
  · subst e3
    obtain ⟨hd, hti, hci⟩ := setTable_calendar_dates_idx h
    refine ⟨?_, ?_, ?_⟩
    · rw [htab, Function.update_noteq (by simp), hti]; exact ht
    · rw [htab, Function.update_noteq (by simp), hci]; exact hc
    · rw [htab, Function.update_same]; exact hd
  · obtain ⟨hti, hci, hgi⟩ := setTable_other_idx h e1 e2 e3
    refine ⟨?_, ?_, ?_⟩
    · rw [htab, Function.update_noteq (fun hx => e1 hx.symm), hti]; exact ht
    · rw [htab, Function.update_noteq (fun hx => e2 hx.symm), hci]; exact hc
    · rw [htab, Function.update_noteq (fun hx => e3 hx.symm), hgi]; exact hg

theorem setTables_indexConsistent {f f' : Feed} {l : List TName}
    {ts : TName → Option DataFrame}
    (hf : indexConsistent f) (h : f.setTables l ts = .ok f') :
    indexConsistent f' := by
  induction l generalizing f with
  | nil => simp only [Feed.setTables] at h; cases h; exact hf
  | cons n ns ih =>
      simp only [Feed.setTables] at h
      cases hs : f.setTable n (ts n) with
      | ok f1 =>
          rw [hs] at h
          exact ih (setTable_indexConsistent hf hs) h
      | error e => rw [hs] at h; cases h

theorem init_indexConsistent {du : String} {ts : TName → Option DataFrame}
    {f : Feed} (h : Feed.init du ts = .ok f) : indexConsistent f := by
  simp only [Feed.init, bind, Except.bind] at h
  set f0 : Feed :=
    { dist_units := "", tables := fun _ => none,
      trips_i := none, calendar_i := none, calendar_dates_g := none } with hf0
  cases hd : f0.set_dist_units du with
  | ok f1 =>
      rw [hd] at h
      have hf1 : indexConsistent f1 := by
        simp only [Feed.set_dist_units] at hd
        by_cases hv : du ∈ DIST_UNITS
        · rw [if_neg (by simpa using hv)] at hd
          cases hd
          exact ⟨rfl, rfl, rfl⟩
        · rw [if_pos (by simpa using hv)] at hd
          cases hd
      exact setTables_indexConsistent hf1 h
  | error e => rw [hd] at h; cases h

/-! ### Tables and dist_units after construction -/

theorem setTable_dist_units {f f' : Feed} {n : TName} {v : Option DataFrame}
    (h : f.setTable n v = .ok f') : f'.dist_units = f.dist_units := by
  cases n <;> simp only [Feed.setTable] at h
  case trips =>
    cases hd : derive1 v "trip_id" with
    | ok i => rw [hd] at h; simp only [Except.map] at h; cases h; rfl
    | error e => rw [hd] at h; simp [Except.map] at h
  case calendar =>
    cases hd : derive1 v "service_id" with
    | ok i => rw [hd] at h; simp only [Except.map] at h; cases h; rfl
    | error e => rw [hd] at h; simp [Except.map] at h
  case calendar_dates =>
    cases hd : deriveG v with
    | ok i => rw [hd] at h; simp only [Except.map] at h; cases h; rfl
    | error e => rw [hd] at h; simp [Except.map] at h
  all_goals (cases h; rfl)

theorem setTables_tables_eq {f f' : Feed} {l : List TName}
    {ts : TName → Option DataFrame} (h : f.setTables l ts = .ok f') :
    ∀ m, f'.tables m = if m ∈ l then ts m else f.tables m := by
  induction l generalizing f with
  | nil =>
      simp only [Feed.setTables] at h
      cases h
      intro m
      simp
  | cons n ns ih =>
      simp only [Feed.setTables] at h
      cases hs : f.setTable n (ts n) with
      | ok f1 =>
          rw [hs] at h
          intro m
          have hrec := ih h m
          have htab := setTable_ok_tables hs
          by_cases hm : m ∈ ns
          · rw [hrec, if_pos hm, if_pos (List.mem_cons_of_mem n hm)]
          · rw [hrec, if_neg hm, htab]
            by_cases hmn : m = n
            · subst hmn
              rw [Function.update_same, if_pos (List.mem_cons_self m ns)]
            · rw [Function.update_noteq hmn,
                if_neg (by simp [List.mem_cons, hmn, hm])]
      | error e => rw [hs] at h; cases h

theorem setTables_dist_units {f f' : Feed} {l : List TName}
    {ts : TName → Option DataFrame} (h : f.setTables l ts = .ok f') :
    f'.dist_units = f.dist_units := by
  induction l generalizing f with
  | nil => simp only [Feed.setTables] at h; cases h; rfl
  | cons n ns ih =>
      simp only [Feed.setTables] at h
      cases hs : f.setTable n (ts n) with
      | ok f1 =>
          rw [hs] at h
          rw [ih h, setTable_dist_units hs]
      | error e => rw [hs] at h; cases h

theorem init_ok_spec {du : String} {ts : TName → Option DataFrame} {f : Feed}
    (h : Feed.init du ts = .ok f) :
    f.dist_units = du ∧ ∀ m, f.tables m = ts m := by
  simp only [Feed.init, bind, Except.bind] at h
  cases hd : Feed.set_dist_units _ du with
  | ok f1 =>
      rw [hd] at h
      simp only [Feed.set_dist_units] at hd
      by_cases hv : du ∈ DIST_UNITS
      · rw [if_neg (not_not_intro hv)] at hd
        cases hd
        constructor
        · rw [setTables_dist_units h]
        · intro m
          rw [setTables_tables_eq h m, if_pos (mem_tableNames m)]
      · rw [if_pos hv] at hd
        cases hd
  | error e => rw [hd] at h; cases h

/-! ### Error-message analysis for construction -/

theorem setTable_error_msg {f : Feed} {n : TName} {v : Option DataFrame}
    {e : String} (h : f.setTable n v = .error e) :
    e = "KeyError: trip_id" ∨ e = "KeyError: service_id" ∨
      e = "KeyError: service_id,date" := by
  cases n <;> simp only [Feed.setTable] at h
  case trips =>
    cases v with
    | none => simp [derive1, Except.map] at h
    | some df =>
        simp only [derive1] at h
        by_cases he : df.isEmpty
        · rw [if_pos he] at h; simp [Except.map] at h
        · rw [if_neg he] at h
          simp only [set_index] at h
          cases hi : df.cols.indexOf? "trip_id" with
          | some i => rw [hi] at h; simp [Except.map] at h
          | none =>
              rw [hi] at h
              simp only [Except.map] at h
              cases h
              exact Or.inl rfl
  case calendar =>
    cases v with
    | none => simp [derive1, Except.map] at h
    | some df =>
        simp only [derive1] at h
        by_cases he : df.isEmpty
        · rw [if_pos he] at h; simp [Except.map] at h
        · rw [if_neg he] at h
          simp only [set_index] at h
          cases hi : df.cols.indexOf? "service_id" with
          | some i => rw [hi] at h; simp [Except.map] at h
          | none =>
              rw [hi] at h
              simp only [Except.map] at h
              cases h
              exact Or.inr (Or.inl rfl)
  case calendar_dates =>
    cases v with
    | none => simp [deriveG, Except.map] at h
    | some df =>
        simp only [deriveG] at h
        by_cases he : df.isEmpty
        · rw [if_pos he] at h; simp [Except.map] at h
        · rw [if_neg he] at h
          simp only [groupby2] at h
          cases hi : df.cols.indexOf? "service_id" with
          | some i =>
              cases hj : df.cols.indexOf? "date" with
              | some j => rw [hi, hj] at h; simp [Except.map] at h
              | none =>
                  rw [hi, hj] at h
                  simp only [Except.map] at h
                  cases h
                  exact Or.inr (Or.inr rfl)
          | none =>
              rw [hi] at h
              simp only [Except.map] at h
              cases h
              exact Or.inr (Or.inr rfl)
  all_goals cases h

theorem setTables_error_msg {f : Feed} {l : List TName}
    {ts : TName → Option DataFrame} {e : String}
    (h : f.setTables l ts = .error e) :
    e = "KeyError: trip_id" ∨ e = "KeyError: service_id" ∨
      e = "KeyError: service_id,date" := by
  induction l generalizing f with
  | nil => simp [Feed.setTables] at h
  | cons n ns ih =>
      simp only [Feed.setTables] at h
      cases hs : f.setTable n (ts n) with
      | ok f1 => rw [hs] at h; exact ih h
      | error e' =>
          rw [hs] at h
          cases h
          exact setTable_error_msg hs

/-! ### Decimal text round-trip lemmas -/

theorem charToDigit_digitToChar {d : Nat} (hd : d < 10) :
    charToDigit (digitToChar d) = some d := by
  interval_cases d <;> decide

theorem digitToChar_ne_minus {d : Nat} (hd : d < 10) : digitToChar d ≠ '-' := by
  interval_cases d <;> decide

theorem digitToChar_ne_dot {d : Nat} (hd : d < 10) : digitToChar d ≠ '.' := by
  interval_cases d <;> decide

theorem parseDigitsAux_append (cs ds : List Char) (acc : Nat) :
    parseDigitsAux (cs ++ ds) acc =
      match parseDigitsAux cs acc with
      | some a => parseDigitsAux ds a
      | none => none := by
  induction cs generalizing acc with
  | nil => rfl
  | cons c cs ih =>
      simp only [List.cons_append, parseDigitsAux]
      cases hcd : charToDigit c with
      | some d => exact ih (acc * 10 + d)
      | none => rfl

theorem parseDigitsAux_replicate_zero (k : Nat) (cs : List Char) (acc : Nat) :
    parseDigitsAux (List.replicate k '0' ++ cs) acc =
      parseDigitsAux cs (acc * 10 ^ k) := by
  induction k generalizing acc with
  | zero => simp
  | succ k ih =>
      simp only [List.replicate_succ, List.cons_append, List.append_eq,
        parseDigitsAux, show charToDigit '0' = some 0 from rfl]
      rw [ih]
      congr 1
      ring

theorem parseDigitsAux_digitCharsAux :
    ∀ (fuel n acc : Nat), n ≤ fuel →
      parseDigitsAux (digitCharsAux fuel n) acc =
        some (acc * 10 ^ (digitCharsAux fuel n).length + n) := by
  intro fuel
  induction fuel with
  | zero =>
      intro n acc h
      have hn : n = 0 := by omega
      subst hn
      simp [digitCharsAux, parseDigitsAux]
  | succ fuel ih =>
      intro n acc h
      by_cases hn : n = 0
      · subst hn
        simp [digitCharsAux, parseDigitsAux]
      · simp only [digitCharsAux, if_neg hn]
        rw [parseDigitsAux_append]
        have hle : n / 10 ≤ fuel := by
          have := Nat.div_lt_self (Nat.pos_of_ne_zero hn) (by norm_num : 1 < 10)
          omega
        rw [ih (n / 10) acc hle]
        simp only [parseDigitsAux, charToDigit_digitToChar (Nat.mod_lt n (by norm_num))]
        have hdm := Nat.div_add_mod n 10
        have hlen : (digitCharsAux fuel (n / 10) ++ [digitToChar (n % 10)]).length
            = (digitCharsAux fuel (n / 10)).length + 1 := by
          simp
        rw [hlen]
        congr 1
        rw [pow_succ]
        ring_nf
        omega

theorem digitCharsAux_length_le {fuel n k : Nat} (hf : n ≤ fuel) (h : n < 10 ^ k) :
    (digitCharsAux fuel n).length ≤ k := by
  induction fuel generalizing n k with
  | zero => simp [digitCharsAux]
  | succ fuel ih =>
      by_cases hn : n = 0
      · subst hn; simp [digitCharsAux]
      · simp only [digitCharsAux, if_neg hn, List.length_append, List.length_singleton]
        have hk : k ≠ 0 := by
          intro hk0
          subst hk0
          simp at h
          omega
        have h1 : n / 10 < 10 ^ (k - 1) := by
          apply Nat.div_lt_of_lt_mul
          have hp : 10 ^ (k - 1) * 10 = 10 ^ k := by
            rw [← pow_succ]
            congr 1
            omega
          omega
        have h2 : n / 10 ≤ fuel := by
          have := Nat.div_lt_self (Nat.pos_of_ne_zero hn) (by norm_num : 1 < 10)
          omega
        have := ih h2 h1
        omega

theorem mem_digitCharsAux {c : Char} :
    ∀ {fuel n : Nat}, c ∈ digitCharsAux fuel n → ∃ d, d < 10 ∧ c = digitToChar d := by
  intro fuel
  induction fuel with
  | zero => intro n h; simp [digitCharsAux] at h
  | succ fuel ih =>
      intro n h
      simp only [digitCharsAux] at h
      by_cases hn : n = 0
      · rw [if_pos hn] at h; simp at h
      · rw [if_neg hn] at h
        rcases List.mem_append.mp h with h1 | h2
        · exact ih h1
        · simp only [List.mem_singleton] at h2
          exact ⟨n % 10, Nat.mod_lt n (by norm_num), h2⟩

theorem mem_natLit {c : Char} {n : Nat} (h : c ∈ natLit n) :
    ∃ d, d < 10 ∧ c = digitToChar d := by
  by_cases hn : n = 0
  · subst hn
    rw [show natLit 0 = ['0'] from rfl, List.mem_singleton] at h
    exact ⟨0, by norm_num, by rw [h]; rfl⟩
  · simp only [natLit, if_neg hn] at h
    exact mem_digitCharsAux h

theorem natDigitChars_ne_nil {n : Nat} (hn : n ≠ 0) : natDigitChars n ≠ [] := by
  cases n with
  | zero => exact absurd rfl hn
  | succ k =>
      intro hc
      simp only [natDigitChars, digitCharsAux, if_neg hn, List.append_eq_nil] at hc
      exact absurd hc.2 (by simp)

theorem natLit_ne_nil (n : Nat) : natLit n ≠ [] := by
  by_cases hn : n = 0
  · subst hn; decide
  · simp only [natLit, if_neg hn]
    exact natDigitChars_ne_nil hn

theorem parseNatLit_natLit (n : Nat) : parseNatLit (natLit n) = some n := by
  by_cases hn : n = 0
  · subst hn; decide
  · simp only [natLit, if_neg hn, parseNatLit]
    rw [if_neg (by simpa [List.isEmpty_iff] using natDigitChars_ne_nil hn)]
    have := parseDigitsAux_digitCharsAux n n 0 (le_refl n)
    simp only [natDigitChars]
    rw [this]
    simp

theorem parseNatLit_padZeros {nd fp : Nat} (h : fp < 10 ^ nd) (hnd : 1 ≤ nd) :
    parseNatLit (padZeros nd (natDigitChars fp)) = some fp := by
  have hlenle : (natDigitChars fp).length ≤ nd := digitCharsAux_length_le (le_refl fp) h
  simp only [padZeros, parseNatLit]
  rw [if_neg ?hne]
  case hne =>
    simp only [List.isEmpty_iff, List.append_eq_nil, List.replicate_eq_nil_iff]
    rintro ⟨h1, h2⟩
    have : (natDigitChars fp).length = 0 := by rw [h2]; rfl
    omega
  rw [parseDigitsAux_replicate_zero]
  have := parseDigitsAux_digitCharsAux fp fp (0 * 10 ^ (nd - (natDigitChars fp).length)) (le_refl fp)
  simp only [natDigitChars] at this ⊢
  rw [this]
  simp

theorem parseIntLit_cons (c : Char) (rest : List Char) :
    parseIntLit (c :: rest) =
      if c = '-' then (parseNatLit rest).map (fun n : Nat => -(n : Int))
      else (parseNatLit (c :: rest)).map (fun n : Nat => (n : Int)) := rfl

theorem parseIntLit_intLit (m : Int) : parseIntLit (intLit m) = some m := by
  by_cases hm : m < 0
  · rw [show intLit m = '-' :: natLit m.natAbs from by
        simp only [intLit, if_pos hm, List.singleton_append]]
    rw [parseIntLit_cons, if_pos rfl, parseNatLit_natLit]
    simp only [Option.map_some']
    congr 1
    omega
  · rw [show intLit m = natLit m.natAbs from by
        simp only [intLit, if_neg hm, List.nil_append]]
    cases hL : natLit m.natAbs with
    | nil => exact absurd hL (natLit_ne_nil _)
    | cons c rest =>
        have hc : c ≠ '-' := by
          obtain ⟨d, hd, rfl⟩ := mem_natLit (hL ▸ List.mem_cons_self c rest)
          exact digitToChar_ne_minus hd
        rw [parseIntLit_cons, if_neg hc, ← hL, parseNatLit_natLit]
        simp only [Option.map_some']
        congr 1
        omega

theorem dot_not_mem_natLit (n : Nat) : '.' ∉ natLit n := by
  intro h
  obtain ⟨d, hd, hc⟩ := mem_natLit h
  exact digitToChar_ne_dot hd hc.symm

theorem dot_not_mem_intLit (m : Int) : '.' ∉ intLit m := by
  intro h
  simp only [intLit] at h
  rcases List.mem_append.mp h with h1 | h1
  · by_cases hm : m < 0
    · rw [if_pos hm] at h1
      simp only [List.mem_singleton] at h1
      exact absurd h1 (by decide)
    · rw [if_neg hm] at h1
      simp at h1
  · exact dot_not_mem_natLit _ h1

theorem parseDigitsAux_mem_isSome {cs : List Char} {acc n : Nat}
    (h : parseDigitsAux cs acc = some n) : ∀ c ∈ cs, (charToDigit c).isSome := by
  induction cs generalizing acc with
  | nil => intro c hc; simp at hc
  | cons c' cs ih =>
      intro c hc
      simp only [parseDigitsAux] at h
      cases hcd : charToDigit c' with
      | some d =>
          simp only [hcd] at h
          rcases List.mem_cons.mp hc with rfl | hc'
          · simp [hcd]
          · exact ih h c hc'
      | none => simp only [hcd] at h; cases h

theorem parseNatLit_dot {cs : List Char} (h : '.' ∈ cs) : parseNatLit cs = none := by
  simp only [parseNatLit]
  split
  · rfl
  · cases hp : parseDigitsAux cs 0 with
    | none => rfl
    | some n =>
        have := parseDigitsAux_mem_isSome hp '.' h
        exact absurd this (by decide)

theorem parseIntLit_dot {cs : List Char} (h : '.' ∈ cs) : parseIntLit cs = none := by
  cases cs with
  | nil => rfl
  | cons c rest =>
      rw [parseIntLit_cons]
      by_cases hc : c = '-'
      · rw [if_pos hc]
        have hrest : '.' ∈ rest := by
          rcases List.mem_cons.mp h with h1 | h1
          · rw [hc] at h1; exact absurd h1 (by decide)
          · exact h1
        rw [parseNatLit_dot hrest]
        rfl
      · rw [if_neg hc, parseNatLit_dot h]
        rfl

theorem dropWhile_no_dot {cs : List Char} (h : ∀ c ∈ cs, c ≠ '.') :
    cs.dropWhile (fun c => c ≠ '.') = [] := by
  induction cs with
  | nil => rfl
  | cons c cs ih =>
      rw [List.dropWhile_cons_of_pos (by simpa using h c (List.mem_cons_self c cs))]
      exact ih (fun c' hc' => h c' (List.mem_cons_of_mem _ hc'))

theorem parseDecAux_no_dot {cs : List Char} (h : ∀ c ∈ cs, c ≠ '.') :
    parseDecAux cs = (parseNatLit cs).map (fun n : Nat => (n : Rat)) := by
  simp only [parseDecAux]
  rw [dropWhile_no_dot h]

theorem parseDecLit_cons (c : Char) (rest : List Char) :
    parseDecLit (c :: rest) =
      if c = '-' then (parseDecAux rest).map (fun q => -q)
      else parseDecAux (c :: rest) := rfl

theorem no_dot_natLit (n : Nat) : ∀ c ∈ natLit n, c ≠ '.' := by
  intro c hc
  obtain ⟨d, hd, rfl⟩ := mem_natLit hc
  exact digitToChar_ne_dot hd

theorem parseDecLit_intLit (m : Int) : parseDecLit (intLit m) = some ((m : Int) : Rat) := by
  by_cases hm : m < 0
  · rw [show intLit m = '-' :: natLit m.natAbs from by
        simp only [intLit, if_pos hm, List.singleton_append]]
    rw [parseDecLit_cons, if_pos rfl, parseDecAux_no_dot (no_dot_natLit _),
      parseNatLit_natLit]
    simp only [Option.map_some']
    congr 1
    have ha : ((m.natAbs : Nat) : Int) = -m := by omega
    calc -((m.natAbs : Nat) : Rat)
        = -(((m.natAbs : Nat) : Int) : Rat) := by rw [Int.cast_natCast]
      _ = -((-m : Int) : Rat) := by rw [ha]
      _ = ((m : Int) : Rat) := by push_cast; ring
  · rw [show intLit m = natLit m.natAbs from by
        simp only [intLit, if_neg hm, List.nil_append]]
    cases hL : natLit m.natAbs with
    | nil => exact absurd hL (natLit_ne_nil _)
    | cons c rest =>
        have hc : c ≠ '-' := by
          obtain ⟨d, hd, rfl⟩ := mem_natLit (hL ▸ List.mem_cons_self c rest)
          exact digitToChar_ne_minus hd
        rw [parseDecLit_cons, if_neg hc, ← hL,
          parseDecAux_no_dot (no_dot_natLit _), parseNatLit_natLit]
        simp only [Option.map_some']
        congr 1
        have ha : ((m.natAbs : Nat) : Int) = m := by omega
        calc ((m.natAbs : Nat) : Rat)
            = (((m.natAbs : Nat) : Int) : Rat) := by rw [Int.cast_natCast]
          _ = ((m : Int) : Rat) := by rw [ha]

theorem intLit_ne_nil (m : Int) : intLit m ≠ [] := by
  intro h
  simp only [intLit, List.append_eq_nil] at h
  exact natLit_ne_nil _ h.2

theorem decLit_parts {nd : Nat} {q : Rat} (hnd : 1 ≤ nd) :
    decLit nd q =
      (if (⌊q * (10 : Rat) ^ nd + 1 / 2⌋ : Int) < 0 then ['-'] else []) ++
        natLit ((⌊q * (10 : Rat) ^ nd + 1 / 2⌋ : Int).natAbs / 10 ^ nd) ++
        '.' :: padZeros nd (natDigitChars
          ((⌊q * (10 : Rat) ^ nd + 1 / 2⌋ : Int).natAbs % 10 ^ nd)) := by
  simp only [decLit]
  rw [if_neg (show ¬nd = 0 by omega)]

theorem dot_mem_decLit {nd : Nat} {q : Rat} (hnd : 1 ≤ nd) : '.' ∈ decLit nd q := by
  rw [decLit_parts hnd]
  refine List.mem_append.mpr (Or.inr ?_)
  exact List.mem_cons_self _ _

theorem padZeros_length {nd : Nat} {cs : List Char} (h : cs.length ≤ nd) :
    (padZeros nd cs).length = nd := by
  simp only [padZeros, List.length_append, List.length_replicate]
  omega

theorem parseDecAux_core {ip fp nd : Nat} (hfp : fp < 10 ^ nd) (hnd : 1 ≤ nd) :
    parseDecAux (natLit ip ++ '.' :: padZeros nd (natDigitChars fp)) =
      some ((ip : Rat) + (fp : Rat) / (10 : Rat) ^ nd) := by
  have hpos : ∀ c ∈ natLit ip, (fun c => decide (c ≠ '.')) c = true := by
    intro c hc
    simpa using no_dot_natLit ip c hc
  have hlen : (padZeros nd (natDigitChars fp)).length = nd :=
    padZeros_length (digitCharsAux_length_le (le_refl fp) hfp)
  simp only [parseDecAux]
  rw [List.dropWhile_append_of_pos hpos,
    List.dropWhile_cons_of_neg (by simp),
    List.takeWhile_append_of_pos hpos,
    List.takeWhile_cons_of_neg (by simp),
    List.append_nil]
  simp only [parseNatLit_natLit, parseNatLit_padZeros hfp hnd, hlen]

/-- `%.{nd}f` rendering followed by float parsing is the identity on
rationals with at most `nd` decimal places (when `nd ≥ 1`). -/
theorem parseDecLit_decLit {nd : Nat} {q : Rat} (hnd : 1 ≤ nd)
    (hden : (q * (10 : Rat) ^ nd).den = 1) :
    parseDecLit (decLit nd q) = some q := by
  have hM : (((q * (10 : Rat) ^ nd).num : Int) : Rat) = q * (10 : Rat) ^ nd :=
    Rat.coe_int_num_of_den_eq_one hden
  set M : Int := (q * (10 : Rat) ^ nd).num with hMdef
  have hfloor : (⌊q * (10 : Rat) ^ nd + 1 / 2⌋ : Int) = M := by
    rw [← hM, show ((M : Int) : Rat) + 1 / 2 = 1 / 2 + ((M : Int) : Rat) from by ring,
      Int.floor_add_int]
    norm_num
  have h10 : ((10 : Rat) ^ nd) ≠ 0 := by positivity
  have hq : q = (M : Rat) / (10 : Rat) ^ nd := by
    rw [eq_div_iff h10]
    exact hM.symm
  set a : Nat := M.natAbs with hadef
  set ip : Nat := a / 10 ^ nd with hipdef
  set fp : Nat := a % 10 ^ nd with hfpdef
  have hfp : fp < 10 ^ nd := Nat.mod_lt _ (by positivity)
  have hdm : ip * 10 ^ nd + fp = a := by
    rw [hipdef, hfpdef, Nat.mul_comm]
    exact Nat.div_add_mod a (10 ^ nd)
  have hcast : (a : Rat) = (ip : Rat) * (10 : Rat) ^ nd + (fp : Rat) := by
    rw [← hdm]
    push_cast
    ring
  have key := @parseDecAux_core ip _ _ hfp hnd
  by_cases hMneg : M < 0
  · have hlist : decLit nd q =
        '-' :: (natLit ip ++ '.' :: padZeros nd (natDigitChars fp)) := by
      rw [decLit_parts hnd, hfloor, if_pos hMneg]
      simp [List.append_assoc]
    have hMa : (M : Rat) = -(a : Rat) := by
      have h1 : (M : Int) = -((a : Nat) : Int) := by omega
      rw [h1]
      push_cast
      ring
    rw [hlist, parseDecLit_cons, if_pos rfl, key]
    simp only [Option.map_some']
    congr 1
    rw [hq, hMa, hcast]
    field_simp
  · have hlist : decLit nd q =
        natLit ip ++ '.' :: padZeros nd (natDigitChars fp) := by
      rw [decLit_parts hnd, hfloor, if_neg hMneg]
      simp
    have hMa : (M : Rat) = (a : Rat) := by
      have h1 : (M : Int) = ((a : Nat) : Int) := by omega
      rw [h1]
      push_cast
      ring
    cases hL : natLit ip with
    | nil => exact absurd hL (natLit_ne_nil _)
    | cons c rest =>
        have hc : c ≠ '-' := by
          obtain ⟨d, hd, rfl⟩ := mem_natLit (hL ▸ List.mem_cons_self c rest)
          exact digitToChar_ne_minus hd
        have hlist2 : decLit nd q =
            c :: (rest ++ '.' :: padZeros nd (natDigitChars fp)) := by
          rw [hlist, hL]
          rfl
        rw [hlist2, parseDecLit_cons, if_neg hc,
          show c :: (rest ++ '.' :: padZeros nd (natDigitChars fp)) =
            natLit ip ++ '.' :: padZeros nd (natDigitChars fp) from by rw [hL]; rfl,
          key]
        congr 1
        rw [hq, hMa, hcast]
        field_simp

theorem intLit_inj_neg_one {m : Int} (h : (⟨intLit m⟩ : String) = "-1") : m = -1 := by
  have hlist : intLit m = ['-', '1'] := congrArg String.data h
  have hp := parseIntLit_intLit m
  rw [hlist] at hp
  have : parseIntLit ['-', '1'] = some (-1) := by decide
  rw [this] at hp
  exact (Option.some_inj.mp hp).symm

/-! ### Round-trip survival conditions and the write/read identity -/

theorem ratTrunc_intCast (m : Int) : ratTrunc ((m : Int) : Rat) = m := by
  by_cases hm : (0 : Rat) ≤ ((m : Int) : Rat)
  · simp [ratTrunc, hm, Int.floor_intCast]
  · simp only [ratTrunc, if_neg hm]
    rw [show -((m : Int) : Rat) = ((-m : Int) : Rat) from by push_cast; ring,
      Int.floor_intCast]
    ring

/-- The value written by the integer-column coercion for a castable cell. -/
def coercedCell (v : Value) : Value :=
  match castIntCell v with
  | some m => .str (if (⟨intLit m⟩ : String) = "-1" then "" else ⟨intLit m⟩)
  | none => v

theorem coerceIntCell_eq {v : Value} {m : Int} (h : castIntCell v = some m) :
    coerceIntCell v = .ok (coercedCell v) := by
  simp [coerceIntCell, coercedCell, h]

/-- The cell value written under column name `c`. -/
def coCell (c : String) (v : Value) : Value :=
  if c ∈ INT_COLS then coercedCell v else v

/-- The cell string written under column name `c`. -/
def renCell (nd : Nat) (c : String) (v : Value) : String :=
  renderCell nd (coCell c v)

theorem coerceRowAux_ok {cols : List String} {r : List Value}
    (h : List.Forall₂ (fun c v => c ∈ INT_COLS → (castIntCell v).isSome = true) cols r) :
    coerceRowAux cols r = .ok (List.zipWith coCell cols r) := by
  induction h with
  | nil => rfl
  | @cons c v cs vs hcv hrest ih =>
      by_cases hc : c ∈ INT_COLS
      · obtain ⟨m, hm⟩ := Option.isSome_iff_exists.mp (hcv hc)
        simp only [coerceRowAux, bind, Except.bind, if_pos hc, coerceIntCell_eq hm,
          ih, List.zipWith, coCell]
      · simp only [coerceRowAux, bind, Except.bind, if_neg hc, ih, List.zipWith, coCell]

theorem coerceRows_ok {cols : List String} {rows : List (List Value)}
    (h : ∀ r ∈ rows, List.Forall₂
      (fun c v => c ∈ INT_COLS → (castIntCell v).isSome = true) cols r) :
    coerceRows cols rows = .ok (rows.map (fun r => List.zipWith coCell cols r)) := by
  induction rows with
  | nil => rfl
  | cons r rs ih =>
      simp only [coerceRows, bind, Except.bind,
        coerceRowAux_ok (h r (List.mem_cons_self r rs)),
        ih (fun r' hr' => h r' (List.mem_cons_of_mem _ hr')), List.map]

theorem renderTable_ok {nd : Nat} {t : DataFrame}
    (h : ∀ r ∈ t.rows, List.Forall₂
      (fun c v => c ∈ INT_COLS → (castIntCell v).isSome = true) t.cols r) :
    renderTable nd t = .ok
      ⟨t.cols, t.rows.map (fun r => List.zipWith (renCell nd) t.cols r)⟩ := by
  simp only [renderTable, coerceInts, coerceRows_ok h, Except.map, List.map_map]
  congr 2
  refine List.map_congr_left ?_
  intro r _
  simp only [Function.comp, List.map_zipWith]
  rfl

theorem getD_zipWith {α β γ : Type} {f : α → β → γ} :
    ∀ (a : List α) (b : List β) (j : Nat) (da : α) (db : β) (dc : γ),
      j < a.length → j < b.length →
      (List.zipWith f a b).getD j dc = f (a.getD j da) (b.getD j db) := by
  intro a
  induction a with
  | nil => intro b j da db dc h1 h2; simp at h1
  | cons x xs ih =>
      intro b j da db dc h1 h2
      cases b with
      | nil => simp at h2
      | cons y ys =>
          cases j with
          | zero => rfl
          | succ j =>
              exact ih ys j da db dc (by simpa using h1) (by simpa using h2)

theorem getD_range_map {γ : Type} (f : Nat → γ) (L j : Nat) (d : γ) (h : j < L) :
    ((List.range L).map f).getD j d = f j := by
  rw [List.getD_eq_getElem _ _ (by simpa using h)]
  simp

/-- The `j`-th column of a table, padding short rows with missing values. -/
def colOf (t : DataFrame) (j : Nat) : List Value :=
  t.rows.map (fun r => r.getD j .na)

/-- The declared survival condition of the round-trip claim for one column:
integer-flagged columns hold either all integers other than the sentinel
`-1`, or a gapped column of integral floats other than `-1`; registry string
columns hold non-empty strings or gaps; other columns are all-integer or
float-or-gap with at most `nd` decimal places. -/
def ColSurvives (nd : Nat) (c : String) (vs : List Value) : Prop :=
  if c ∈ INT_COLS then
    (∀ v ∈ vs, ∃ m : Int, v = .int m ∧ m ≠ -1) ∨
    (Value.na ∈ vs ∧
      ∀ v ∈ vs, v = .na ∨ ∃ m : Int, v = .float ((m : Int) : Rat) ∧ m ≠ -1)
  else if c ∈ DTYPE then
    ∀ v ∈ vs, v = .na ∨ ∃ s, v = .str s ∧ s ≠ ""
  else
    (∀ v ∈ vs, ∃ m : Int, v = .int m) ∨
    (∀ v ∈ vs, v = .na ∨ ∃ q : Rat, v = .float q ∧ (q * (10 : Rat) ^ nd).den = 1)

/-- The survival condition for one table: non-empty, trimmed unique-free
column names, rectangular rows, and per-column cell survival. -/
def TableSurvives (nd : Nat) (t : DataFrame) : Prop :=
  t.isEmpty = false ∧
  (∀ c ∈ t.cols, stripName c = c) ∧
  (∀ r ∈ t.rows, r.length = t.cols.length) ∧
  ∀ j, j < t.cols.length → ColSurvives nd (t.cols.getD j "") (colOf t j)

theorem INT_not_DTYPE : ∀ c ∈ INT_COLS, c ∉ DTYPE := by decide

theorem DTYPE_not_INT : ∀ c ∈ DTYPE, c ∉ INT_COLS := by decide

theorem string_mk_ne_empty {l : List Char} (h : l ≠ []) : (⟨l⟩ : String) ≠ "" :=
  fun hc => h (congrArg String.data hc)

theorem renCell_int_flagged {nd : Nat} {c : String} (hc : c ∈ INT_COLS) {v : Value}
    {m : Int} (hcast : castIntCell v = some m) (hm : m ≠ -1) :
    renCell nd c v = ⟨intLit m⟩ := by
  have hne : (⟨intLit m⟩ : String) ≠ "-1" := fun hx => hm (intLit_inj_neg_one hx)
  simp [renCell, coCell, hc, coercedCell, hcast, if_neg hne, renderCell]

theorem renCell_na_flagged {nd : Nat} {c : String} (hc : c ∈ INT_COLS) :
    renCell nd c .na = "" := by
  simp only [renCell, coCell, if_pos hc, coercedCell, castIntCell]
  rw [if_pos (show (⟨intLit (-1)⟩ : String) = "-1" from rfl)]
  rfl

theorem renCell_unflagged_na {nd : Nat} {c : String} (hc : c ∉ INT_COLS) :
    renCell nd c .na = "" := by
  simp [renCell, coCell, hc, renderCell]

theorem renCell_unflagged_int {nd : Nat} {c : String} {m : Int} (hc : c ∉ INT_COLS) :
    renCell nd c (.int m) = ⟨intLit m⟩ := by
  simp [renCell, coCell, hc, renderCell]

theorem renCell_unflagged_float {nd : Nat} {c : String} {q : Rat} (hc : c ∉ INT_COLS) :
    renCell nd c (.float q) = ⟨decLit nd q⟩ := by
  simp [renCell, coCell, hc, renderCell]

theorem renCell_unflagged_str {nd : Nat} {c : String} {s : String} (hc : c ∉ INT_COLS) :
    renCell nd c (.str s) = s := by
  simp [renCell, coCell, hc, renderCell]

/-- Per-column round trip: under the survival condition, the column type
inferred from the written cells parses every written cell back to the
original value. -/
theorem col_roundtrip {nd : Nat} {c : String} {vs : List Value} (hnd : 1 ≤ nd)
    (hvs : vs ≠ []) (hs : ColSurvives nd c vs) :
    ∀ v ∈ vs,
      parseCellAs (inferColType c (vs.map (renCell nd c))) (renCell nd c v) = v := by
  by_cases hc1 : c ∈ INT_COLS
  · have hcD : c ∉ DTYPE := INT_not_DTYPE c hc1
    simp only [ColSurvives, if_pos hc1] at hs
    rcases hs with hall | ⟨hna, hall⟩
    · have hren : ∀ v ∈ vs, ∃ m : Int, castIntCell v = some m ∧ m ≠ -1 ∧ v = .int m := by
        intro v hv
        obtain ⟨m, rfl, hm⟩ := hall v hv
        exact ⟨m, rfl, hm, rfl⟩
      have hall1 : (vs.map (renCell nd c)).all
          (fun s => (parseIntLit s.data).isSome) = true := by
        rw [List.all_eq_true]
        intro s hsmem
        obtain ⟨v, hv, rfl⟩ := List.mem_map.mp hsmem
        obtain ⟨m, hcast, hm, rfl⟩ := hren v hv
        rw [renCell_int_flagged hc1 hcast hm]
        simp [parseIntLit_intLit]
      have hty : inferColType c (vs.map (renCell nd c)) = .cint := by
        simp only [inferColType, if_neg hcD]
        rw [if_pos hall1]
      intro v hv
      obtain ⟨m, hcast, hm, rfl⟩ := hren v hv
      rw [hty, renCell_int_flagged hc1 hcast hm]
      simp only [parseCellAs]
      rw [parseIntLit_intLit]
      rfl
    · have hren : ∀ v ∈ vs,
          v = .na ∨ ∃ m : Int, v = .float ((m : Int) : Rat) ∧ m ≠ -1 ∧
            renCell nd c v = ⟨intLit m⟩ := by
        intro v hv
        rcases hall v hv with rfl | ⟨m, rfl, hm⟩
        · exact Or.inl rfl
        · refine Or.inr ⟨m, rfl, hm, ?_⟩
          have hcast : castIntCell (.float ((m : Int) : Rat)) = some m := by
            simp [castIntCell, ratTrunc_intCast]
          exact renCell_int_flagged hc1 hcast hm
      have hall1 : (vs.map (renCell nd c)).all
          (fun s => (parseIntLit s.data).isSome) = false := by
        rw [List.all_eq_false]
        exact ⟨"", List.mem_map.mpr ⟨.na, hna, renCell_na_flagged hc1⟩, by decide⟩
      have hall2 : (vs.map (renCell nd c)).all
          (fun s => s = "" || (parseDecLit s.data).isSome) = true := by
        rw [List.all_eq_true]
        intro s hsmem
        obtain ⟨v, hv, rfl⟩ := List.mem_map.mp hsmem
        rcases hren v hv with rfl | ⟨m, rfl, hm, he⟩
        · rw [renCell_na_flagged hc1]; simp
        · rw [he]
          have := parseDecLit_intLit m
          simp [show (⟨intLit m⟩ : String).data = intLit m from rfl, this]
      have hty : inferColType c (vs.map (renCell nd c)) = .cfloat := by
        simp only [inferColType, if_neg hcD]
        rw [if_neg (by simp [hall1]), if_pos hall2]
      intro v hv
      rcases hren v hv with rfl | ⟨m, rfl, hm, he⟩
      · rw [hty, renCell_na_flagged hc1]; rfl
      · rw [hty, he]
        simp only [parseCellAs]
        rw [if_neg (string_mk_ne_empty (intLit_ne_nil m))]
        rw [parseDecLit_intLit]
        rfl
  · by_cases hc2 : c ∈ DTYPE
    · simp only [ColSurvives, if_neg hc1, if_pos hc2] at hs
      have hty : inferColType c (vs.map (renCell nd c)) = .cstr := by
        simp only [inferColType, if_pos hc2]
      intro v hv
      rcases hs v hv with rfl | ⟨s, rfl, hsne⟩
      · rw [hty, renCell_unflagged_na hc1]; rfl
      · rw [hty, renCell_unflagged_str hc1]
        simp only [parseCellAs]
        rw [if_neg hsne]
    · simp only [ColSurvives, if_neg hc1, if_neg hc2] at hs
      rcases hs with hall | hall
      · have hall1 : (vs.map (renCell nd c)).all
            (fun s => (parseIntLit s.data).isSome) = true := by
          rw [List.all_eq_true]
          intro s hsmem
          obtain ⟨v, hv, rfl⟩ := List.mem_map.mp hsmem
          obtain ⟨m, rfl⟩ := hall v hv
          rw [renCell_unflagged_int hc1]
          simp [parseIntLit_intLit]
        have hty : inferColType c (vs.map (renCell nd c)) = .cint := by
          simp only [inferColType, if_neg hc2]
          rw [if_pos hall1]
        intro v hv
        obtain ⟨m, rfl⟩ := hall v hv
        rw [hty, renCell_unflagged_int hc1]
        simp only [parseCellAs]
        rw [parseIntLit_intLit]
        rfl
      · obtain ⟨v0, hv0⟩ := List.exists_mem_of_ne_nil vs hvs
        have hall1 : (vs.map (renCell nd c)).all
            (fun s => (parseIntLit s.data).isSome) = false := by
          rw [List.all_eq_false]
          rcases hall v0 hv0 with rfl | ⟨q, rfl, hden⟩
          · exact ⟨"", List.mem_map.mpr ⟨.na, hv0, renCell_unflagged_na hc1⟩, by decide⟩
          · refine ⟨⟨decLit nd q⟩,
              List.mem_map.mpr ⟨_, hv0, renCell_unflagged_float hc1⟩, ?_⟩
            rw [show (⟨decLit nd q⟩ : String).data = decLit nd q from rfl,
              parseIntLit_dot (dot_mem_decLit hnd)]
            simp
        have hall2 : (vs.map (renCell nd c)).all
            (fun s => s = "" || (parseDecLit s.data).isSome) = true := by
          rw [List.all_eq_true]
          intro s hsmem
          obtain ⟨v, hv, rfl⟩ := List.mem_map.mp hsmem
          rcases hall v hv with rfl | ⟨q, rfl, hden⟩
          · rw [renCell_unflagged_na hc1]; simp
          · rw [renCell_unflagged_float hc1]
            simp [show (⟨decLit nd q⟩ : String).data = decLit nd q from rfl,
              parseDecLit_decLit hnd hden]
        have hty : inferColType c (vs.map (renCell nd c)) = .cfloat := by
          simp only [inferColType, if_neg hc2]
          rw [if_neg (by simp [hall1]), if_pos hall2]
        intro v hv
        rcases hall v hv with rfl | ⟨q, rfl, hden⟩
        · rw [hty, renCell_unflagged_na hc1]; rfl
        · rw [hty, renCell_unflagged_float hc1]
          simp only [parseCellAs]
          rw [if_neg (string_mk_ne_empty (List.ne_nil_of_mem (dot_mem_decLit hnd)))]
          rw [parseDecLit_decLit hnd hden]
          rfl

theorem survival_castable {nd : Nat} {c : String} {vs : List Value}
    (h : ColSurvives nd c vs) (hc : c ∈ INT_COLS) :
    ∀ v ∈ vs, (castIntCell v).isSome = true := by
  simp only [ColSurvives, if_pos hc] at h
  intro v hv
  rcases h with hall | ⟨_, hall⟩
  · obtain ⟨m, rfl, _⟩ := hall v hv; rfl
  · rcases hall v hv with rfl | ⟨m, rfl, _⟩ <;> rfl

/-- Per-table round trip: writing a surviving table and reading the written
file back yields exactly the original table. -/
theorem table_roundtrip {nd : Nat} {t : DataFrame} (hnd : 1 ≤ nd)
    (hs : TableSurvives nd t) :
    ∃ r, renderTable nd t = .ok r ∧ r.header = t.cols ∧ r.header ≠ [] ∧
      (read_csv r).isEmpty = false ∧ clean_column_names (read_csv r) = t := by
  obtain ⟨hemp, htrim, hrect, hcols⟩ := hs
  rw [DataFrame.isEmpty, Bool.or_eq_false_iff, List.isEmpty_eq_false,
    List.isEmpty_eq_false] at hemp
  obtain ⟨hrows_ne, hcols_ne⟩ := hemp
  have hcast : ∀ r ∈ t.rows, List.Forall₂
      (fun c v => c ∈ INT_COLS → (castIntCell v).isSome = true) t.cols r := by
    intro r hr
    rw [List.forall₂_iff_get]
    refine ⟨(hrect r hr).symm, ?_⟩
    intro i h1 h2 hci
    have hgi : t.cols.get ⟨i, h1⟩ = t.cols.getD i "" := by
      rw [List.getD_eq_getElem _ _ h1]
      rfl
    have hvi : r.get ⟨i, h2⟩ = r.getD i .na := by
      rw [List.getD_eq_getElem _ _ h2]
      rfl
    rw [hgi] at hci
    rw [hvi]
    exact survival_castable (hcols i h1) hci _ (List.mem_map.mpr ⟨r, hr, rfl⟩)
  have hcolne : ∀ j, colOf t j ≠ [] := by
    intro j hc
    exact hrows_ne (by simpa [colOf] using hc)
  have hparse : read_csv
      ⟨t.cols, t.rows.map (fun r => List.zipWith (renCell nd) t.cols r)⟩
        = ⟨t.cols, t.rows⟩ := by
    have hcolcells : ∀ j, j < t.cols.length →
        colCells (⟨t.cols, t.rows.map (fun r => List.zipWith (renCell nd) t.cols r)⟩ :
            Rendered) j
          = (colOf t j).map (renCell nd (t.cols.getD j "")) := by
      intro j hj
      simp only [colCells, colOf, List.map_map]
      refine List.map_congr_left ?_
      intro r hr
      simp only [Function.comp]
      exact getD_zipWith t.cols r j "" .na "" hj (by rw [hrect r hr]; exact hj)
    simp only [read_csv, List.map_map]
    congr 1
    refine (List.map_congr_left ?_).trans (List.map_id _)
    intro r hr
    simp only [Function.comp, id]
    refine List.ext_getElem (by simp [hrect r hr]) ?_
    intro i hi1 hi2
    have hiL : i < t.cols.length := by simpa using hi1
    rw [List.getElem_map, List.getElem_range]
    rw [getD_range_map _ _ _ _ hiL, hcolcells i hiL]
    rw [getD_zipWith t.cols r i "" .na "" hiL (by rw [hrect r hr]; exact hiL)]
    rw [col_roundtrip hnd (hcolne i) (hcols i hiL) (r.getD i .na)
      (List.mem_map.mpr ⟨r, hr, rfl⟩)]
    rw [List.getD_eq_getElem _ _ hi2]
  refine ⟨⟨t.cols, t.rows.map (fun r => List.zipWith (renCell nd) t.cols r)⟩,
    renderTable_ok hcast, rfl, hcols_ne, ?_, ?_⟩
  · rw [hparse, DataFrame.isEmpty]
    simp [hrows_ne, hcols_ne]
  · rw [hparse]
    simp only [clean_column_names]
    rw [List.map_congr_left htrim]
    simp only [List.map_id']

/-! ### Feed-level round-trip plumbing -/

theorem tableOfStem_fileStem (n : TName) : tableOfStem n.fileStem = some n := by
  cases n <;> rfl

theorem tableNames_nodup : tableNames.Nodup := by decide

theorem almost_equal_refl (t : DataFrame) : almost_equal t t = true := by
  simp [almost_equal]

theorem writeLoop_spec {f : Feed} {nd : Nat} :
    ∀ (l : List TName) (acc : TName → Option Rendered),
      (∀ n ∈ l, ∀ t, f.tables n = some t → ∃ r, renderTable nd t = .ok r) →
      ∃ files, writeLoop f nd acc l = .ok files ∧
        (∀ n, n ∉ l → files n = acc n) ∧
        (∀ n ∈ l, (f.tables n = none → files n = acc n) ∧
          ∀ t, f.tables n = some t → ∃ r, renderTable nd t = .ok r ∧
            files n = some r) := by
  intro l
  induction l with
  | nil =>
      intro acc _
      refine ⟨acc, rfl, fun n _ => rfl, ?_⟩
      intro n hn
      simp at hn
  | cons n ns ih =>
      intro acc hren
      cases hfn : f.tables n with
      | none =>
          obtain ⟨files, hw, hnm, hm⟩ :=
            ih acc (fun m hm' => hren m (List.mem_cons_of_mem _ hm'))
          refine ⟨files, by simp only [writeLoop, hfn]; exact hw, ?_, ?_⟩
          · intro m hm'
            exact hnm m (fun hx => hm' (List.mem_cons_of_mem _ hx))
          · intro m hmem
            rcases List.mem_cons.mp hmem with rfl | hmns
            · by_cases hns : m ∈ ns
              · exact hm m hns
              · refine ⟨fun _ => hnm m hns, fun t ht => ?_⟩
                rw [hfn] at ht
                cases ht
            · exact hm m hmns
      | some t =>
          obtain ⟨r, hr⟩ := hren n (List.mem_cons_self n ns) t hfn
          obtain ⟨files, hw, hnm, hm⟩ :=
            ih (Function.update acc n (some r))
              (fun m hm' => hren m (List.mem_cons_of_mem _ hm'))
          refine ⟨files, by simp only [writeLoop, hfn, hr]; exact hw, ?_, ?_⟩
          · intro m hm'
            have h1 : m ∉ ns := fun hx => hm' (List.mem_cons_of_mem _ hx)
            have h2 : m ≠ n := fun hx => hm' (hx ▸ List.mem_cons_self n ns)
            rw [hnm m h1]
            exact Function.update_noteq h2 _ _
          · intro m hmem
            rcases List.mem_cons.mp hmem with rfl | hmns
            · by_cases hns : m ∈ ns
              · refine ⟨fun hc => ?_, (hm m hns).2⟩
                rw [hfn] at hc
                cases hc
              · refine ⟨fun hc => ?_, fun t' ht' => ?_⟩
                · rw [hfn] at hc; cases hc
                · rw [hfn] at ht'
                  cases ht'
                  refine ⟨r, hr, ?_⟩
                  rw [hnm m hns]
                  exact Function.update_same _ _ _
            · refine ⟨fun hc => ?_, (hm m hmns).2⟩
              by_cases hmn : m = n
              · subst hmn
                rw [hfn] at hc
                cases hc
              · rw [(hm m hmns).1 hc]
                exact Function.update_noteq hmn _ _

/-- The directory written by `Feed.write`: one `<table>.txt` entry per
rendered table; a written file's size is positive since it contains at least
the header line. -/
def dirEntriesOf (files : TName → Option Rendered) (l : List TName) : List DirEntry :=
  l.filterMap fun n => (files n).map fun r =>
    ⟨n.fileStem, ".txt", true, r.header.length + r.rows.length, .good r⟩

theorem readLoop_dirEntries {files : TName → Option Rendered} :
    ∀ (l : List TName) (ts : TName → Option DataFrame),
      l.Nodup →
      (∀ n ∈ l, ∀ r, files n = some r →
        r.header ≠ [] ∧ (read_csv r).isEmpty = false) →
      ∃ ts', readLoop ts (dirEntriesOf files l) = .ok ts' ∧
        (∀ m, m ∉ l → ts' m = ts m) ∧
        (∀ m ∈ l, ts' m = match files m with
          | some r => some (clean_column_names (read_csv r))
          | none => ts m) := by
  intro l
  induction l with
  | nil =>
      intro ts _ _
      refine ⟨ts, rfl, fun m _ => rfl, ?_⟩
      intro m hm
      simp at hm
  | cons n ns ih =>
      intro ts hnd hgood
      have hndup := List.nodup_cons.mp hnd
      cases hfn : files n with
      | none =>
          have hde : dirEntriesOf files (n :: ns) = dirEntriesOf files ns := by
            simp only [dirEntriesOf, List.filterMap_cons, hfn, Option.map_none']
          obtain ⟨ts', hrl, hnm, hm⟩ :=
            ih ts hndup.2 (fun m hm' => hgood m (List.mem_cons_of_mem _ hm'))
          refine ⟨ts', by rw [hde]; exact hrl, ?_, ?_⟩
          · intro m hm'
            exact hnm m (fun hx => hm' (List.mem_cons_of_mem _ hx))
          · intro m hmem
            rcases List.mem_cons.mp hmem with rfl | hmns
            · rw [hfn, hnm m hndup.1]
            · exact hm m hmns
      | some r =>
          obtain ⟨hhead, hempty⟩ := hgood n (List.mem_cons_self n ns) r hfn
          have hde : dirEntriesOf files (n :: ns) =
              ⟨n.fileStem, ".txt", true, r.header.length + r.rows.length, .good r⟩ ::
                dirEntriesOf files ns := by
            simp only [dirEntriesOf, List.filterMap_cons, hfn, Option.map_some']
          obtain ⟨ts', hrl, hnm, hm⟩ :=
            ih (Function.update ts n (some (clean_column_names (read_csv r))))
              hndup.2 (fun m hm' => hgood m (List.mem_cons_of_mem _ hm'))
          have hsz : r.header.length + r.rows.length ≠ 0 := by
            intro hc
            exact hhead (List.eq_nil_of_length_eq_zero (by omega))
          have hstep : readLoop ts (dirEntriesOf files (n :: ns)) = .ok ts' := by
            rw [hde]
            simp only [readLoop, tableOfStem_fileStem]
            rw [if_pos ⟨by trivial, hsz, by trivial⟩, if_neg (by simp [hempty])]
            exact hrl
          refine ⟨ts', hstep, ?_, ?_⟩
          · intro m hm'
            have h1 : m ∉ ns := fun hx => hm' (List.mem_cons_of_mem _ hx)
            have h2 : m ≠ n := fun hx => hm' (hx ▸ List.mem_cons_self n ns)
            rw [hnm m h1]
            exact Function.update_noteq h2 _ _
          · intro m hmem
            rcases List.mem_cons.mp hmem with rfl | hmns
            · rw [hfn, hnm m hndup.1]
              exact Function.update_same _ _ _
            · have hmn : m ≠ n := fun hx => hndup.1 (hx ▸ hmns)
              have h2 := hm m hmns
              cases hfm : files m with
              | none =>
                  rw [hfm] at h2
                  rw [h2]
                  exact Function.update_noteq hmn _ _
              | some r' =>
                  rw [hfm] at h2
                  exact h2

/-- A present table of a keyed slot must carry its index key column, so the
corresponding derived-index computation succeeds at construction. -/
def keyedOk (n : TName) (v : Option DataFrame) : Prop :=
  match n with
  | .trips => ∀ df, v = some df → df.isEmpty = false → "trip_id" ∈ df.cols
  | .calendar => ∀ df, v = some df → df.isEmpty = false → "service_id" ∈ df.cols
  | .calendar_dates => ∀ df, v = some df → df.isEmpty = false →
      "service_id" ∈ df.cols ∧ "date" ∈ df.cols
  | _ => True

theorem indexOf?_isSome_of_mem {a : String} {l : List String} (h : a ∈ l) :
    ∃ i, l.indexOf? a = some i := by
  cases hx : l.indexOf? a with
  | some i => exact ⟨i, rfl⟩
  | none =>
      rw [List.indexOf?_eq_none_iff] at hx
      exact absurd (by simp : (a == a) = true) (by simpa using hx a h)

theorem derive1_ok_exists {v : Option DataFrame} {key : String}
    (h : ∀ df, v = some df → df.isEmpty = false → key ∈ df.cols) :
    ∃ i, derive1 v key = .ok i := by
  cases v with
  | none => exact ⟨none, rfl⟩
  | some df =>
      simp only [derive1]
      by_cases he : df.isEmpty
      · rw [if_pos he]
        exact ⟨none, rfl⟩
      · rw [if_neg he]
        obtain ⟨i, hi⟩ := indexOf?_isSome_of_mem (h df rfl (by simpa using he))
        simp only [set_index, hi]
        exact ⟨_, rfl⟩

theorem deriveG_ok_exists {v : Option DataFrame}
    (h : ∀ df, v = some df → df.isEmpty = false →
      "service_id" ∈ df.cols ∧ "date" ∈ df.cols) :
    ∃ i, deriveG v = .ok i := by
  cases v with
  | none => exact ⟨none, rfl⟩
  | some df =>
      simp only [deriveG]
      by_cases he : df.isEmpty
      · rw [if_pos he]
        exact ⟨none, rfl⟩
      · rw [if_neg he]
        obtain ⟨h1, h2⟩ := h df rfl (by simpa using he)
        obtain ⟨i, hi⟩ := indexOf?_isSome_of_mem h1
        obtain ⟨j, hj⟩ := indexOf?_isSome_of_mem h2
        simp only [groupby2, hi, hj]
        exact ⟨_, rfl⟩

theorem setTable_ok_exists {f : Feed} {n : TName} {v : Option DataFrame}
    (h : keyedOk n v) : ∃ f', f.setTable n v = .ok f' := by
  cases n <;> simp only [Feed.setTable]
  case trips =>
      obtain ⟨i, hi⟩ := @derive1_ok_exists _ "trip_id" h
      rw [hi]
      exact ⟨_, rfl⟩
  case calendar =>
      obtain ⟨i, hi⟩ := @derive1_ok_exists _ "service_id" h
      rw [hi]
      exact ⟨_, rfl⟩
  case calendar_dates =>
      obtain ⟨i, hi⟩ := deriveG_ok_exists h
      rw [hi]
      exact ⟨_, rfl⟩
  all_goals exact ⟨_, rfl⟩

theorem setTables_ok_exists {ts : TName → Option DataFrame} :
    ∀ (l : List TName) (f : Feed), (∀ n ∈ l, keyedOk n (ts n)) →
      ∃ f', f.setTables l ts = .ok f' := by
  intro l
  induction l with
  | nil => intro f _; exact ⟨f, rfl⟩
  | cons n ns ih =>
      intro f h
      obtain ⟨f1, hf1⟩ := setTable_ok_exists (f := f) (h n (List.mem_cons_self n ns))
      obtain ⟨f', hf'⟩ := ih f1 (fun m hm => h m (List.mem_cons_of_mem _ hm))
      refine ⟨f', ?_⟩
      simp only [Feed.setTables, hf1]
      exact hf'

theorem init_ok_exists {du : String} {ts : TName → Option DataFrame}
    (hdu : du ∈ DIST_UNITS) (hk : ∀ n, keyedOk n (ts n)) :
    ∃ f2, Feed.init du ts = .ok f2 := by
  obtain ⟨f', hf'⟩ :=
    setTables_ok_exists tableNames
      { dist_units := du, tables := fun _ => none, trips_i := none,
        calendar_i := none, calendar_dates_g := none }
      (fun n _ => hk n)
  refine ⟨f', ?_⟩
  simp only [Feed.init, bind, Except.bind, Feed.set_dist_units,
    if_neg (not_not_intro hdu)]
  exact hf'

theorem feedEqAux_ok_true {f g : Feed} (hdu : f.dist_units = g.dist_units) :
    ∀ l : List TName, (∀ n ∈ l, f.tables n = g.tables n) →
      feedEqAux f g l = .ok true := by
  intro l
  induction l with
  | nil => intro _; simp [feedEqAux, hdu]
  | cons n ns ih =>
      intro h
      simp only [feedEqAux, bind, Except.bind]
      rw [h n (List.mem_cons_self n ns)]
      cases hg : g.tables n with
      | none =>
          simp only [tableEqSlot]
          exact ih (fun m hm => h m (List.mem_cons_of_mem _ hm))
      | some t =>
          simp only [tableEqSlot, almost_equal_refl]
          exact ih (fun m hm => h m (List.mem_cons_of_mem _ hm))

/-! ### Claim theorems -/

/-- C5: constructing a Feed with `dist_units = v`, or assigning `v` to an
existing Feed's `dist_units`, raises the validation error naming the allowed
value set (`DIST_UNITS`) if and only if `v` is not in the enumeration; when
`v` is valid the value is stored.  The check is the first action of
construction and the only action of assignment. -/
theorem dist_units_validation :
    ∀ (f : Feed) (v : String) (ts : TName → Option DataFrame),
      ((f.set_dist_units v = .error distUnitsMsg) ↔ v ∉ DIST_UNITS) ∧
      (v ∈ DIST_UNITS → f.set_dist_units v = .ok { f with dist_units := v }) ∧
      ((Feed.init v ts = .error distUnitsMsg) ↔ v ∉ DIST_UNITS) ∧
      distUnitsMsg = "Distance units are required and must lie in " ++
        toString DIST_UNITS := by
  intro f v ts
  refine ⟨?_, ?_, ?_, rfl⟩
  · constructor
    · intro h hv
      simp only [Feed.set_dist_units] at h
      rw [if_neg (not_not_intro hv)] at h
      simp at h
    · intro hv
      simp only [Feed.set_dist_units]
      rw [if_pos hv]
  · intro hv
    simp only [Feed.set_dist_units]
    rw [if_neg (not_not_intro hv)]
  · constructor
    · intro h hv
      simp only [Feed.init, bind, Except.bind] at h
      cases hd : Feed.set_dist_units _ v with
      | ok f1 =>
          rw [hd] at h
          rcases setTables_error_msg h with h' | h' | h' <;>
            exact absurd h' (by decide)
      | error e =>
          simp only [Feed.set_dist_units] at hd
          rw [if_neg (not_not_intro hv)] at hd
          simp at hd
    · intro hv
      simp only [Feed.init, bind, Except.bind, Feed.set_dist_units]
      rw [if_pos hv]

/-- Witness for C5 at concrete inputs: "zzz" is rejected with the message
naming the allowed set, "km" is accepted and stored. -/
theorem dist_units_validation_witness :
    feed0.set_dist_units "zzz" = .error distUnitsMsg ∧
      feed0.set_dist_units "km" = .ok { feed0 with dist_units := "km" } := by
  constructor
  · exact (dist_units_validation feed0 "zzz" (fun _ => none)).1.mpr (by decide)
  · exact (dist_units_validation feed0 "km" (fun _ => none)).2.1 (by decide)

/-- C3: after every construction and after every completed whole-attribute
assignment to `trips`, `calendar` or `calendar_dates`, the corresponding
derived index is present iff its source table is present and non-empty, and
when present it is derived from exactly the value most recently assigned;
assigning the absence-marker makes the index absent. -/
theorem derived_index_consistency :
    (∀ (f f' : Feed) (v : Option DataFrame),
       Feed.setTable f .trips v = .ok f' →
         f'.tables .trips = v ∧ derive1 v "trip_id" = .ok f'.trips_i ∧
         (f'.trips_i.isSome = true ↔ ∃ df, v = some df ∧ df.isEmpty = false) ∧
         (v = none → f'.trips_i = none)) ∧
    (∀ (f f' : Feed) (v : Option DataFrame),
       Feed.setTable f .calendar v = .ok f' →
         f'.tables .calendar = v ∧ derive1 v "service_id" = .ok f'.calendar_i ∧
         (f'.calendar_i.isSome = true ↔ ∃ df, v = some df ∧ df.isEmpty = false) ∧
         (v = none → f'.calendar_i = none)) ∧
    (∀ (f f' : Feed) (v : Option DataFrame),
       Feed.setTable f .calendar_dates v = .ok f' →
         f'.tables .calendar_dates = v ∧ deriveG v = .ok f'.calendar_dates_g ∧
         (f'.calendar_dates_g.isSome = true ↔
           ∃ df, v = some df ∧ df.isEmpty = false) ∧
         (v = none → f'.calendar_dates_g = none)) ∧
    (∀ (du : String) (ts : TName → Option DataFrame) (f : Feed),
       Feed.init du ts = .ok f →
         indexConsistent f ∧
         (f.trips_i.isSome = true ↔
           ∃ df, f.tables .trips = some df ∧ df.isEmpty = false) ∧
         (f.calendar_i.isSome = true ↔
           ∃ df, f.tables .calendar = some df ∧ df.isEmpty = false) ∧
         (f.calendar_dates_g.isSome = true ↔
           ∃ df, f.tables .calendar_dates = some df ∧ df.isEmpty = false)) := by
  refine ⟨?_, ?_, ?_, ?_⟩
  · intro f f' v h
    obtain ⟨hd, -, -⟩ := setTable_trips_idx h
    refine ⟨by rw [setTable_ok_tables h, Function.update_same], hd,
      derive1_ok_isSome hd, ?_⟩
    intro hv
    subst hv
    simpa [derive1] using hd.symm
  · intro f f' v h
    obtain ⟨hd, -, -⟩ := setTable_calendar_idx h
    refine ⟨by rw [setTable_ok_tables h, Function.update_same], hd,
      derive1_ok_isSome hd, ?_⟩
    intro hv
    subst hv
    simpa [derive1] using hd.symm
  · intro f f' v h
    obtain ⟨hd, -, -⟩ := setTable_calendar_dates_idx h
    refine ⟨by rw [setTable_ok_tables h, Function.update_same], hd,
      deriveG_ok_isSome hd, ?_⟩
    intro hv
    subst hv
    simpa [deriveG] using hd.symm
  · intro du ts f h
    have hc := init_indexConsistent h
    exact ⟨hc, derive1_ok_isSome hc.1, derive1_ok_isSome hc.2.1,
      deriveG_ok_isSome hc.2.2⟩

/-- Witness for C3: assigning a concrete non-empty trips table to `feed0`
succeeds and produces a present trips index. -/
theorem derived_index_consistency_witness :
    ∃ f', Feed.setTable feed0 .trips (some tdfCE) = .ok f' ∧
      f'.trips_i.isSome = true := by
  obtain ⟨f', h⟩ : ∃ f', Feed.setTable feed0 .trips (some tdfCE) = .ok f' :=
    ⟨_, rfl⟩
  exact ⟨f', h,
    ((derived_index_consistency.1 feed0 f' (some tdfCE) h).2.2.1).mpr
      ⟨tdfCE, rfl, rfl⟩⟩

/-- C8: `read_feed` resolution order — an existing local path always wins
(even for a string that also parses as a URL); otherwise a successful HEAD
probe selects the URL path; the terminal "path does not exist or URL has bad
status" error is raised exactly when both checks fail. -/
theorem read_feed_resolution :
    ∀ (pathExists headOk : String → Bool) (s : String),
      (pathExists s = true → read_feed pathExists headOk s = .ok .fromPath) ∧
      (pathExists s = false → headOk s = true →
        read_feed pathExists headOk s = .ok .fromUrl) ∧
      (read_feed pathExists headOk s = .error pathUrlMsg ↔
        pathExists s = false ∧ headOk s = false) := by
  intro pe ho s
  cases hpe : pe s <;> cases hho : ho s <;> simp [read_feed, hpe, hho]

/-- Witness for C8: both branches taken at concrete oracles. -/
theorem read_feed_resolution_witness :
    read_feed (fun _ => true) (fun _ => true) "gtfs" = .ok .fromPath ∧
      read_feed (fun _ => false) (fun _ => true) "gtfs" = .ok .fromUrl := by
  exact ⟨(read_feed_resolution (fun _ => true) (fun _ => true) "gtfs").1 rfl,
    (read_feed_resolution (fun _ => false) (fun _ => true) "gtfs").2.1 rfl rfl⟩

/-- A zip archive whose `trips.txt` is malformed CSV. -/
def malformedZip : PathInput :=
  .zipArchive [⟨"trips", ".txt", true, 10, .malformed⟩]

/-- C7 (counterexample): loading a zip archive with a malformed table file
raises the parse error, and the scratch directory created for unpacking is
not released on that exit path — the manual `tmp_dir.cleanup()` is skipped. -/
theorem scratch_cleanup_counterexample :
    (readFeedFromPath malformedZip "km").result = .error parseErrMsg ∧
      (readFeedFromPath malformedZip "km").scratchReleased = false := by
  constructor <;> rfl

/-- C7 (amended): the scratch directory of an archive input is released iff
the per-file parse loop completes (in particular it is released on normal
return, and on a later `dist_units` validation failure, since the manual
cleanup precedes Feed construction); directory inputs create no scratch
directory; on the write side the zip scratch directory is released iff every
table serializes without error. -/
theorem scratch_cleanup_amended :
    ∀ (es : List DirEntry) (du : String) (f : Feed) (nd : Nat),
      ((readFeedFromPath (.zipArchive es) du).scratchReleased = true ↔
        ∃ ts, readLoop (fun _ => none) es = .ok ts) ∧
      (readFeedFromPath (.dir es) du).scratchReleased = true ∧
      ((writeFeedZip f nd).scratchReleased = true ↔
        ∃ files, f.write nd = .ok files) := by
  intro es du f nd
  refine ⟨?_, ?_, ?_⟩
  · cases h : readLoop (fun _ => none) es with
    | ok ts => simp [readFeedFromPath, h]
    | error e => simp [readFeedFromPath, h]
  · cases h : readLoop (fun _ => none) es with
    | ok ts => simp [readFeedFromPath, h]
    | error e => simp [readFeedFromPath, h]
  · cases h : f.write nd with
    | ok fs => simp [writeFeedZip, h]
    | error e => simp [writeFeedZip, h]

theorem readLoop_none_preserved {ts ts' : TName → Option DataFrame}
    {es : List DirEntry} {n : TName} (hn : ts n = none)
    (hes : ∀ e ∈ es, tableOfStem e.stem = some n →
      e.size = 0 ∨ ∃ r, e.content = .good r ∧ r.rows = [])
    (h : readLoop ts es = .ok ts') : ts' n = none := by
  induction es generalizing ts with
  | nil => simp only [readLoop] at h; cases h; exact hn
  | cons e es ih =>
      simp only [readLoop] at h
      cases hstem : tableOfStem e.stem with
      | none =>
          simp only [hstem] at h
          exact ih hn (fun e' he' => hes e' (List.mem_cons_of_mem _ he')) h
      | some m =>
          simp only [hstem] at h
          by_cases hcond : e.isFile = true ∧ e.size ≠ 0 ∧ e.suffix = ".txt"
          · rw [if_pos hcond] at h
            cases hc : e.content with
            | malformed => simp only [hc] at h; cases h
            | good r =>
                simp only [hc] at h
                by_cases hemp : (read_csv r).isEmpty = true
                · rw [if_pos hemp] at h
                  exact ih hn (fun e' he' => hes e' (List.mem_cons_of_mem _ he')) h
                · rw [if_neg hemp] at h
                  by_cases hmn : m = n
                  · subst hmn
                    rcases hes e (List.mem_cons_self e es) hstem with hsz | ⟨r', hr', hrows⟩
                    · exact absurd hsz hcond.2.1
                    · rw [hc] at hr'
                      cases hr'
                      exact absurd (by simp [read_csv, DataFrame.isEmpty, hrows]) hemp
                  · refine ih ?_ (fun e' he' => hes e' (List.mem_cons_of_mem _ he')) h
                    rw [Function.update_noteq (fun hx => hmn hx.symm)]
                    exact hn
          · rw [if_neg hcond] at h
            exact ih hn (fun e' he' => hes e' (List.mem_cons_of_mem _ he')) h

/-- C6: loading a bundle directory stores the absence-marker in the slot of a
recognized table whose files are all zero-size or parse to zero rows
(header-only); absence and emptiness are collapsed at load time. -/
theorem empty_table_collapse :
    ∀ (es : List DirEntry) (du : String) (n : TName) (f : Feed),
      (∀ e ∈ es, tableOfStem e.stem = some n →
        e.size = 0 ∨ ∃ r, e.content = .good r ∧ r.rows = []) →
      (readFeedFromPath (.dir es) du).result = .ok f →
      f.tables n = none := by
  intro es du n f hes h
  simp only [readFeedFromPath] at h
  cases hl : readLoop (fun _ => none) es with
  | ok ts =>
      simp only [hl] at h
      rw [(init_ok_spec h).2 n]
      exact readLoop_none_preserved rfl hes hl
  | error e => simp [hl] at h

/-- A header-only (zero-row) trips file. -/
def emptyTripsEntry : DirEntry := ⟨"trips", ".txt", true, 5, .good ⟨["trip_id"], []⟩⟩

/-- Witness for C6: a bundle with a header-only `trips.txt` loads with the
trips slot absent. -/
theorem empty_table_collapse_witness :
    ∃ f, (readFeedFromPath (.dir [emptyTripsEntry]) "km").result = .ok f ∧
      f.tables .trips = none := by
  obtain ⟨f, hf⟩ :
      ∃ f, (readFeedFromPath (.dir [emptyTripsEntry]) "km").result = .ok f :=
    ⟨_, rfl⟩
  refine ⟨f, hf, empty_table_collapse [emptyTripsEntry] "km" .trips f ?_ hf⟩
  intro e he hst
  simp only [List.mem_singleton] at he
  subst he
  exact Or.inr ⟨⟨["trip_id"], []⟩, rfl, rfl⟩

/-- C2 (code bug): comparing a Feed whose `trips`-like slot is absent with a
Feed where that slot holds a DataFrame does not return `False` as documented;
`None != DataFrame` evaluates elementwise and its use in an `if` raises the
pandas "truth value is ambiguous" `ValueError`.  In the other direction the
comparison does return `False`. -/
theorem eq_absent_slot_raises :
    (Feed.init "km" (fun _ => none)).bind (fun fA =>
      (Feed.init "km"
          (Function.update (fun _ => none) TName.agency (some agencyCE))).bind
        (fun fB => feedEq fA fB))
      = .error "The truth value of a DataFrame is ambiguous." ∧
    (Feed.init "km" (fun _ => none)).bind (fun fA =>
      (Feed.init "km"
          (Function.update (fun _ => none) TName.agency (some agencyCE))).bind
        (fun fB => feedEq fB fA))
      = .ok false := by
  constructor <;> rfl

/-- C9 (counterexample): a non-missing `-1` in an integer-flagged column is
rendered as an empty string, not as the integer text "-1" — the
`replace("-1", "")` sentinel rewrite collides with genuine `-1` values. -/
theorem int_col_sentinel_collision :
    renderTable 6 ⟨["direction_id"], [[.int (-1)]]⟩ =
      .ok ⟨["direction_id"], [[""]]⟩ := by
  rfl

/-- C9 (amended): for a cell of an integer-flagged column whose integer cast
is `m`, the written text is the decimal rendering of `m` without a decimal
point when `m ≠ -1` (in particular for every missing cell the sentinel `-1`
yields the empty string), and the empty string when `m = -1` — so non-missing
cells render as integers exactly when their cast is not the sentinel value. -/
theorem int_column_rendering :
    ∀ (nd : Nat) (v : Value) (m : Int), castIntCell v = some m →
      ((coerceIntCell v).map (renderCell nd) =
        .ok (if m = -1 then "" else (⟨intLit m⟩ : String))) ∧
      (m ≠ -1 → '.' ∉ intLit m ∧ parseIntLit (intLit m) = some m) ∧
      (v = .na → m = -1) := by
  intro nd v m hcast
  refine ⟨?_, fun hm => ⟨dot_not_mem_intLit m, parseIntLit_intLit m⟩, ?_⟩
  · simp only [coerceIntCell, hcast]
    by_cases hm : m = -1
    · subst hm
      rw [if_pos rfl, if_pos (by decide)]
      rfl
    · have hs : (⟨intLit m⟩ : String) ≠ "-1" := fun hc => hm (intLit_inj_neg_one hc)
      rw [if_neg hm, if_neg hs]
      rfl
  · intro hv
    subst hv
    simp only [castIntCell] at hcast
    exact (Option.some_inj.mp hcast).symm

/-- C1: writing a Feed to a directory with precision `nd` and loading that
directory back with the same `dist_units` yields a Feed equal to the
original, for feeds all of whose present tables survive the declared
precision-truncation and integer-coercion rules (and carry the key columns
their derived indexes need). -/
theorem write_read_roundtrip :
    ∀ (f : Feed) (nd : Nat),
      1 ≤ nd →
      f.dist_units ∈ DIST_UNITS →
      (∀ n, keyedOk n (f.tables n)) →
      (∀ n t, f.tables n = some t → TableSurvives nd t) →
      ∃ files f2,
        f.write nd = .ok files ∧
        (readFeedFromPath (.dir (dirEntriesOf files tableNames))
          f.dist_units).result = .ok f2 ∧
        feedEq f f2 = .ok true := by
  intro f nd hnd hdu hkeys hsurv
  obtain ⟨files, hw, hwnm, hwm⟩ :=
    @writeLoop_spec f nd tableNames (fun _ => none)
      (fun n _ t ht => by
        obtain ⟨r, hr, -, -, -, -⟩ := table_roundtrip hnd (hsurv n t ht)
        exact ⟨r, hr⟩)
  have hfiles : ∀ n, (f.tables n = none → files n = none) ∧
      ∀ t, f.tables n = some t → ∃ r, renderTable nd t = .ok r ∧
        files n = some r := by
    intro n
    exact hwm n (mem_tableNames n)
  have hgood : ∀ n ∈ tableNames, ∀ r, files n = some r →
      r.header ≠ [] ∧ (read_csv r).isEmpty = false := by
    intro n _ r hr
    cases hfn : f.tables n with
    | none =>
        rw [(hfiles n).1 hfn] at hr
        cases hr
    | some t =>
        obtain ⟨r', hr', hfr'⟩ := (hfiles n).2 t hfn
        rw [hfr'] at hr
        cases hr
        obtain ⟨r2, hr2, hhead, hheadne, hempty, hclean⟩ :=
          table_roundtrip hnd (hsurv n t hfn)
        rw [hr'] at hr2
        cases hr2
        exact ⟨hheadne, hempty⟩
  obtain ⟨ts', hrl, hrnm, hrm⟩ :=
    readLoop_dirEntries tableNames (fun _ => none) tableNames_nodup hgood
  have hts : ∀ n, ts' n = f.tables n := by
    intro n
    have h2 := hrm n (mem_tableNames n)
    cases hfn : f.tables n with
    | none =>
        rw [(hfiles n).1 hfn] at h2
        rw [h2]
    | some t =>
        obtain ⟨r, hr, hfr⟩ := (hfiles n).2 t hfn
        rw [hfr] at h2
        obtain ⟨r2, hr2, hhead, hheadne, hempty, hclean⟩ :=
          table_roundtrip hnd (hsurv n t hfn)
        rw [hr] at hr2
        cases hr2
        rw [h2]
        show some (clean_column_names (read_csv r)) = some t
        rw [hclean]
  obtain ⟨f2, hinit⟩ :=
    @init_ok_exists f.dist_units ts' hdu (fun n => by rw [hts n]; exact hkeys n)
  refine ⟨files, f2, hw, ?_, ?_⟩
  · simp only [readFeedFromPath, hrl]
    exact hinit
  · have hspec := init_ok_spec hinit
    have hdueq : f.dist_units = f2.dist_units := hspec.1.symm
    have htabs : ∀ n ∈ tableNames, f.tables n = f2.tables n := by
      intro n _
      rw [hspec.2 n, hts n]
    exact feedEqAux_ok_true hdueq tableNames htabs

/-- A trips table with a string key column and an integer-flagged column. -/
def rtTrips : DataFrame :=
  ⟨["trip_id", "direction_id"], [[.str "t1", .int 0], [.str "t2", .int 1]]⟩

/-- A concrete feed for the round-trip witness. -/
def rtFeed : Feed :=
  { dist_units := "km",
    tables := Function.update (fun _ => none) TName.trips (some rtTrips),
    trips_i := some [(.str "t1", [.int 0]), (.str "t2", [.int 1])],
    calendar_i := none, calendar_dates_g := none }

theorem rtTrips_survives : TableSurvives 6 rtTrips := by
  refine ⟨rfl, ?_, ?_, ?_⟩
  · intro c hc
    rcases List.mem_cons.mp hc with rfl | hc
    · decide
    · rcases List.mem_cons.mp hc with rfl | hc
      · decide
      · simp at hc
  · intro r hr
    rcases List.mem_cons.mp hr with rfl | hr
    · rfl
    · rcases List.mem_cons.mp hr with rfl | hr
      · rfl
      · simp at hr
  · intro j hj
    match j, hj with
    | 0, _ =>
        rw [show ColSurvives 6 (rtTrips.cols.getD 0 "") (colOf rtTrips 0) =
          ((∀ v ∈ colOf rtTrips 0, v = .na ∨ ∃ s, v = .str s ∧ s ≠ "")) from by
            simp only [ColSurvives]
            rw [if_neg (by decide), if_pos (by decide)]]
        intro v hv
        rcases List.mem_cons.mp hv with rfl | hv
        · exact Or.inr ⟨"t1", rfl, by decide⟩
        · rcases List.mem_cons.mp hv with rfl | hv
          · exact Or.inr ⟨"t2", rfl, by decide⟩
          · simp at hv
    | 1, _ =>
        rw [show ColSurvives 6 (rtTrips.cols.getD 1 "") (colOf rtTrips 1) =
          ((∀ v ∈ colOf rtTrips 1, ∃ m : Int, v = .int m ∧ m ≠ -1) ∨
            (Value.na ∈ colOf rtTrips 1 ∧ ∀ v ∈ colOf rtTrips 1,
              v = .na ∨ ∃ m : Int, v = .float ((m : Int) : Rat) ∧ m ≠ -1)) from by
            simp only [ColSurvives]
            rw [if_pos (by decide)]]
        refine Or.inl ?_
        intro v hv
        rcases List.mem_cons.mp hv with rfl | hv
        · exact ⟨0, rfl, by decide⟩
        · rcases List.mem_cons.mp hv with rfl | hv
          · exact ⟨1, rfl, by decide⟩
          · simp at hv

/-- Witness for C1: the concrete feed `rtFeed` writes and reloads to an
equal Feed. -/
theorem write_read_roundtrip_witness :
    ∃ files f2,
      rtFeed.write 6 = .ok files ∧
      (readFeedFromPath (.dir (dirEntriesOf files tableNames))
        rtFeed.dist_units).result = .ok f2 ∧
      feedEq rtFeed f2 = .ok true := by
  refine write_read_roundtrip rtFeed 6 (by decide) (by decide) ?_ ?_
  · intro n
    cases n
    case trips =>
        intro df hdf _
        have hdf2 : some rtTrips = some df :=
          (show rtFeed.tables TName.trips = some rtTrips from rfl).symm.trans hdf
        injection hdf2 with hdf3
        subst hdf3
        decide
    case calendar =>
        intro df hdf
        exact Option.noConfusion
          (show (none : Option DataFrame) = some df from hdf)
    case calendar_dates =>
        intro df hdf
        exact Option.noConfusion
          (show (none : Option DataFrame) = some df from hdf)
    all_goals trivial
  · intro n t ht
    have hn : n = TName.trips := by
      by_contra hne
      rw [show rtFeed.tables n = none from by
        simp [rtFeed, Function.update_noteq hne]] at ht
      cases ht
    subst hn
    have hdf2 : some rtTrips = some t :=
      (show rtFeed.tables TName.trips = some rtTrips from rfl).symm.trans ht
    injection hdf2 with hdf3
    subst hdf3
    exact rtTrips_survives

/-- Witness for C9 (amended): a concrete non-sentinel integer renders as its
digit string, and a missing cell renders empty. -/
theorem int_column_rendering_witness :
    (coerceIntCell (.int 7)).map (renderCell 6) = .ok "7" ∧
      (coerceIntCell .na).map (renderCell 6) = .ok "" := by
  constructor
  · rw [(int_column_rendering 6 (.int 7) 7 rfl).1]
    rfl
  · rw [(int_column_rendering 6 .na (-1) rfl).1]
    rfl

end GtfsKit
